import Mathlib

/-!
Verification of the AI-based vacuum cleaner repository.

This file gives a shallow embedding of the Python sources
(`environment.py`, `algorithms.py`, `agents.py`) and proves the
specification claims about them.

Conventions of the embedding:
* Python `(x, y)` integer tuples become `Coord := Int × Int`.
* The tile constants `TileState.CLEAN/DIRTY/OBSTACLE` stay the
  machine integers `0/1/2` that the source uses.
* The grid `list[list[int]]` becomes `List (List Nat)`.  The source only
  indexes the grid after an `is_valid_position` check (or at the robot's
  position, which is kept valid), so total `getD`-style access with a
  default is faithful on every reachable state.
* Python dictionaries (`came_from`, `g_score`) become association lists
  with front insertion, so a repeated insertion shadows the old binding
  exactly like a dict update; lookups take the most recent binding.
* `while` loops become fuel-indexed recursion.  The fuel passed by the
  top-level entry points is proved sufficient, so the fuel-exhaustion
  branch is never taken on those calls.
-/

abbrev Coord := Int × Int

/-- `TileState.CLEAN = 0` from environment.py. -/
def TileState.CLEAN : Nat := 0

/-- `TileState.DIRTY = 1` from environment.py. -/
def TileState.DIRTY : Nat := 1

/-- `TileState.OBSTACLE = 2` from environment.py. -/
def TileState.OBSTACLE : Nat := 2

/-- The mutable state of `Environment` (environment.py).  The grid is a
row-major list of rows, indexed `grid[y][x]` as in the source. -/
structure Environment where
  width : Nat
  height : Nat
  grid : List (List Nat)
  robot_pos : Coord
  total_dirt : Nat
  cleaned_dirt : Nat
  deriving DecidableEq, Repr

/-- The raw grid access `self.grid[y][x]`.  The source performs it only on
coordinates that passed `is_valid_position` (or at the robot's position,
which the code keeps valid), so the out-of-range default is never
consulted on states corresponding to Python runs. -/
def gridGet (env : Environment) (x y : Int) : Nat :=
  (env.grid.getD y.toNat []).getD x.toNat TileState.CLEAN

/-- The in-place update `self.grid[y][x] = v`. -/
def gridSet (env : Environment) (x y : Int) (v : Nat) : List (List Nat) :=
  env.grid.set y.toNat ((env.grid.getD y.toNat []).set x.toNat v)

/-- `Environment.is_valid_position` from environment.py. -/
def Environment.is_valid_position (env : Environment) (x y : Int) : Bool :=
  decide (0 ≤ x ∧ x < (env.width : Int) ∧ 0 ≤ y ∧ y < (env.height : Int))

/-- `Environment.get_tile_state` from environment.py. -/
def Environment.get_tile_state (env : Environment) (x y : Int) : Nat :=
  if env.is_valid_position x y then gridGet env x y else TileState.OBSTACLE

/-- `Environment.is_walkable` from environment.py. -/
def Environment.is_walkable (env : Environment) (x y : Int) : Bool :=
  env.is_valid_position x y && decide (gridGet env x y ≠ TileState.OBSTACLE)

/-- `Environment.move_robot` from environment.py: the returned Bool is the
Python return value, the returned environment is the post-state. -/
def Environment.move_robot (env : Environment) (new_x new_y : Int) :
    Bool × Environment :=
  if env.is_walkable new_x new_y then
    (true, { env with robot_pos := (new_x, new_y) })
  else
    (false, env)

/-- `Environment.clean_current_tile` from environment.py. -/
def Environment.clean_current_tile (env : Environment) : Bool × Environment :=
  let x := env.robot_pos.1
  let y := env.robot_pos.2
  if gridGet env x y = TileState.DIRTY then
    (true, { env with grid := gridSet env x y TileState.CLEAN,
                      cleaned_dirt := env.cleaned_dirt + 1 })
  else
    (false, env)

/-- `Environment.get_dirty_tiles` from environment.py: all dirty cells,
outer loop over `y`, inner loop over `x` (row-major order). -/
def Environment.get_dirty_tiles (env : Environment) : List Coord :=
  ((List.range env.height).map fun (y : Nat) =>
    (List.range env.width).filterMap fun (x : Nat) =>
      if gridGet env (x : Int) (y : Int) = TileState.DIRTY then
        some ((x : Int), (y : Int))
      else none).flatten

/-- `Environment.get_neighbors` from environment.py: the walkable
4-neighbours in the fixed order up, right, down, left. -/
def Environment.get_neighbors (env : Environment) (x y : Int) : List Coord :=
  [((0 : Int), (-1 : Int)), (1, 0), (0, 1), (-1, 0)].filterMap fun d =>
    let nx := x + d.1
    let ny := y + d.2
    if env.is_walkable nx ny then some (nx, ny) else none

/-- `Environment.is_all_clean` from environment.py. -/
def Environment.is_all_clean (env : Environment) : Bool :=
  decide (env.total_dirt ≤ env.cleaned_dirt)

/-- The number of dirty cells currently in the grid (specification-side
counter used to state the dirt-accounting invariant). -/
def dirtyCount (env : Environment) : Nat :=
  (env.grid.map fun row => row.countP fun t => t == TileState.DIRTY).sum

/-- The grid really is a `height × width` matrix, as built by
`Environment.__init__`. -/
def WFGrid (env : Environment) : Prop :=
  env.grid.length = env.height ∧ ∀ row ∈ env.grid, row.length = env.width

instance (env : Environment) : Decidable (WFGrid env) := by
  unfold WFGrid; infer_instance

/-- States produced by `Environment.__init__` / `_initialize_grid`: the
robot starts at `(0, 0)` whose tile is skipped during randomisation (so it
stays `CLEAN`), `cleaned_dirt` starts at `0`, and `total_dirt` counts
exactly the dirty cells that were placed. -/
def ValidInit (env : Environment) : Prop :=
  0 < env.width ∧ 0 < env.height ∧ WFGrid env ∧
    env.robot_pos = (0, 0) ∧ gridGet env 0 0 = TileState.CLEAN ∧
    env.cleaned_dirt = 0 ∧ env.total_dirt = dirtyCount env

instance (env : Environment) : Decidable (ValidInit env) := by
  unfold ValidInit; infer_instance

/-! ## algorithms.py -/

/-- Association-list model of a Python dict keyed by coordinates.  Updates
prepend, lookups take the most recent binding, exactly mirroring dict
assignment and lookup. -/
def alookup {β : Type} : List (Coord × β) → Coord → Option β
  | [], _ => none
  | (k, v) :: t, c => if k = c then some v else alookup t c

/-- The `came_from` dict: `None` marks the start entry. -/
abbrev CameFrom := List (Coord × Option Coord)

/-- `SearchResult` from algorithms.py.  `explored` is a Python set, so a
`Finset`; `frontier_history` records the frontier at the top of every loop
iteration (the source stores `set(frontier)`, we keep the underlying
snapshot list, which carries the same membership information and
additionally the multiplicities). -/
structure SearchResult where
  path : List Coord := []
  nodes_expanded : Nat := 0
  nodes_in_frontier : Nat := 0
  explored : Finset Coord := ∅
  frontier_history : List (List Coord) := []
  path_cost : Nat := 0
  found : Bool := false

/-- The loop of `reconstruct_path`, with fuel for the `while`: walk the
`came_from` links from `current` back to `start`, accumulating the cells
visited, and reverse at the end.  Returns `none` if the fuel runs out or a
link is missing (a `KeyError` in Python); the call sites are proved to
avoid both. -/
def reconstructAux (cf : CameFrom) (start : Coord) :
    Coord → Nat → List Coord → Option (List Coord)
  | _, 0, _ => none
  | current, fuel + 1, acc =>
    if current = start then some acc.reverse
    else
      match alookup cf current with
      | some (some prev) => reconstructAux cf start prev fuel (acc ++ [current])
      | _ => none

/-- `reconstruct_path` from algorithms.py (fuel `cf.length + 1` is enough
for every call the search algorithms make, as proved below). -/
def reconstruct_path (cf : CameFrom) (start goal : Coord) : Option (List Coord) :=
  reconstructAux cf start goal (cf.length + 1) []

/-- The `for neighbor in environment.get_neighbors(*current)` body of
`bfs`: append undiscovered neighbours to the frontier and record their
predecessor. -/
def bfsPush (current : Coord) (explored : Finset Coord) :
    List Coord → List Coord → CameFrom → List Coord × CameFrom
  | [], fr, cf => (fr, cf)
  | nb :: nbs, fr, cf =>
    if alookup cf nb = none ∧ nb ∉ explored then
      bfsPush current explored nbs (fr ++ [nb]) ((nb, some current) :: cf)
    else
      bfsPush current explored nbs fr cf

/-- The `while frontier` loop of `bfs`.  The deque pops at the front and
appends at the back. -/
def bfsLoop (env : Environment) (start goal : Coord) :
    Nat → List Coord → CameFrom → Finset Coord → SearchResult → SearchResult
  | 0, _, _, explored, res => { res with explored := explored }
  | fuel + 1, frontier, cf, explored, res =>
    match frontier with
    | [] => { res with explored := explored }
    | current :: rest =>
      let res1 := { res with frontier_history := res.frontier_history ++ [frontier] }
      let explored1 := insert current explored
      let res2 := { res1 with nodes_expanded := res1.nodes_expanded + 1 }
      if current = goal then
        let p := (reconstruct_path cf start goal).getD []
        { res2 with path := p, path_cost := p.length,
                    explored := explored1, found := true }
      else
        let pc := bfsPush current explored1
          (env.get_neighbors current.1 current.2) rest cf
        bfsLoop env start goal fuel pc.1 pc.2 explored1 res2

/-- Fuel that the termination argument below shows is sufficient for the
`bfs` and `dfs` loops: the loop runs at most `width*height + 1` iterations. -/
def searchFuel (env : Environment) : Nat := 2 * (env.width * env.height) + 2

/-- `bfs` from algorithms.py. -/
def bfs (env : Environment) (start goal : Coord) : SearchResult :=
  if start = goal then { found := true }
  else bfsLoop env start goal (searchFuel env) [start] [(start, none)] ∅ {}

/-- The `for neighbor ...` body of `dfs`.  The Python stack is a list with
pushes and pops at the right end; we keep the stack top-first, so a Python
`append` is a cons here and a Python `pop()` takes the head. -/
def dfsPush (current : Coord) (explored : Finset Coord) :
    List Coord → List Coord → CameFrom → List Coord × CameFrom
  | [], fr, cf => (fr, cf)
  | nb :: nbs, fr, cf =>
    if alookup cf nb = none ∧ nb ∉ explored then
      dfsPush current explored nbs (nb :: fr) ((nb, some current) :: cf)
    else
      dfsPush current explored nbs fr cf

/-- The `while frontier` loop of `dfs`, including the stale-entry skip
branch `if current in explored: continue`. -/
def dfsLoop (env : Environment) (start goal : Coord) :
    Nat → List Coord → CameFrom → Finset Coord → SearchResult → SearchResult
  | 0, _, _, explored, res => { res with explored := explored }
  | fuel + 1, frontier, cf, explored, res =>
    match frontier with
    | [] => { res with explored := explored }
    | current :: rest =>
      let res1 := { res with frontier_history := res.frontier_history ++ [frontier] }
      if current ∈ explored then
        dfsLoop env start goal fuel rest cf explored res1
      else
        let explored1 := insert current explored
        let res2 := { res1 with nodes_expanded := res1.nodes_expanded + 1 }
        if current = goal then
          let p := (reconstruct_path cf start goal).getD []
          { res2 with path := p, path_cost := p.length,
                      explored := explored1, found := true }
        else
          let pc := dfsPush current explored1
            (env.get_neighbors current.1 current.2) rest cf
          dfsLoop env start goal fuel pc.1 pc.2 explored1 res2

/-- `dfs` from algorithms.py. -/
def dfs (env : Environment) (start goal : Coord) : SearchResult :=
  if start = goal then { found := true }
  else dfsLoop env start goal (searchFuel env) [start] [(start, none)] ∅ {}

/-- `dfsLoop` with the stale-entry skip branch removed.  Used only to
state that the skip branch of `dfs` is never taken (claim C10): under the
guard on pushes, a popped cell can never already be explored, so `dfs`
computes the same result as this skip-free variant. -/
def dfsLoopNoSkip (env : Environment) (start goal : Coord) :
    Nat → List Coord → CameFrom → Finset Coord → SearchResult → SearchResult
  | 0, _, _, explored, res => { res with explored := explored }
  | fuel + 1, frontier, cf, explored, res =>
    match frontier with
    | [] => { res with explored := explored }
    | current :: rest =>
      let res1 := { res with frontier_history := res.frontier_history ++ [frontier] }
      let explored1 := insert current explored
      let res2 := { res1 with nodes_expanded := res1.nodes_expanded + 1 }
      if current = goal then
        let p := (reconstruct_path cf start goal).getD []
        { res2 with path := p, path_cost := p.length,
                    explored := explored1, found := true }
      else
        let pc := dfsPush current explored1
          (env.get_neighbors current.1 current.2) rest cf
        dfsLoopNoSkip env start goal fuel pc.1 pc.2 explored1 res2

/-- `dfs` with the skip branch removed (comparison definition for C10). -/
def dfsNoSkip (env : Environment) (start goal : Coord) : SearchResult :=
  if start = goal then { found := true }
  else dfsLoopNoSkip env start goal (searchFuel env) [start] [(start, none)] ∅ {}

/-- `heuristic` from algorithms.py: Manhattan distance (non-negative, so a
`Nat`). -/
def heuristic (pos1 pos2 : Coord) : Nat :=
  (pos1.1 - pos2.1).natAbs + (pos1.2 - pos2.2).natAbs

/-- Lexicographic order on heap entries `(f_score, (x, y))`, the order
Python uses to compare the tuples stored in the `heapq` frontier. -/
def entryLe (a b : Nat × Coord) : Prop :=
  a.1 < b.1 ∨ (a.1 = b.1 ∧ (a.2.1 < b.2.1 ∨ (a.2.1 = b.2.1 ∧ a.2.2 ≤ b.2.2)))

instance (a b : Nat × Coord) : Decidable (entryLe a b) := by
  unfold entryLe; infer_instance

/-- `heapq.heappop`: remove a least entry (under the Python tuple order)
from the frontier.  A binary heap always pops a minimal element, and
entries comparing equal are structurally identical tuples, so modelling
the heap by its element list with minimum extraction is faithful. -/
def popMin : List (Nat × Coord) → Option ((Nat × Coord) × List (Nat × Coord))
  | [] => none
  | x :: xs =>
    match popMin xs with
    | none => some (x, [])
    | some (m, rest) => if entryLe x m then some (x, xs) else some (m, x :: rest)

/-- The `for neighbor ...` relaxation body of `astar`: state is
`(frontier, came_from, g_score)`. -/
def astarRelax (goal current : Coord) (explored : Finset Coord) :
    List Coord → List (Nat × Coord) → CameFrom → List (Coord × Nat) →
    List (Nat × Coord) × CameFrom × List (Coord × Nat)
  | [], fr, cf, gs => (fr, cf, gs)
  | nb :: nbs, fr, cf, gs =>
    if nb ∈ explored then
      astarRelax goal current explored nbs fr cf gs
    else
      let tentative := (alookup gs current).getD 0 + 1
      if (match alookup gs nb with
          | none => true
          | some g => decide (tentative < g)) = true then
        astarRelax goal current explored nbs
          ((tentative + heuristic nb goal, nb) :: fr)
          ((nb, some current) :: cf) ((nb, tentative) :: gs)
      else
        astarRelax goal current explored nbs fr cf gs

/-- The `while frontier` loop of `astar`.  `frontier_history` records the
set of positions in the frontier (here: the position list). -/
def astarLoop (env : Environment) (start goal : Coord) :
    Nat → List (Nat × Coord) → CameFrom → List (Coord × Nat) → Finset Coord →
    SearchResult → SearchResult
  | 0, _, _, _, explored, res => { res with explored := explored }
  | fuel + 1, frontier, cf, gs, explored, res =>
    match popMin frontier with
    | none => { res with explored := explored }
    | some ((_, current), rest) =>
      let res1 := { res with
        frontier_history := res.frontier_history ++ [frontier.map Prod.snd] }
      if current ∈ explored then
        astarLoop env start goal fuel rest cf gs explored res1
      else
        let explored1 := insert current explored
        let res2 := { res1 with nodes_expanded := res1.nodes_expanded + 1 }
        if current = goal then
          let p := (reconstruct_path cf start goal).getD []
          { res2 with path := p, path_cost := p.length,
                      explored := explored1, found := true }
        else
          let fcg := astarRelax goal current explored1
            (env.get_neighbors current.1 current.2) rest cf gs
          astarLoop env start goal fuel fcg.1 fcg.2.1 fcg.2.2 explored1 res2

/-- Fuel sufficient for the `astar` loop (proved below via a potential
function on the frontier and the `g_score` map). -/
def astarFuel (env : Environment) : Nat :=
  (env.width * env.height + 1) * (env.width * env.height + 4) + 6

/-- `astar` from algorithms.py. -/
def astar (env : Environment) (start goal : Coord) : SearchResult :=
  if start = goal then { found := true }
  else astarLoop env start goal (astarFuel env) [(0, start)] [(start, none)]
    [(start, 0)] ∅ {}

/-- Python's `min(xs, key=f)` on a nonempty list: scan left to right,
keeping the current minimum and replacing it only on a strictly smaller
key, so ties keep the earliest element. -/
def minByKey (key : Coord → Nat) (x : Coord) (xs : List Coord) : Coord :=
  xs.foldl (fun b a => if key a < key b then a else b) x

/-- `find_nearest_dirty_tile` from algorithms.py. -/
def find_nearest_dirty_tile (env : Environment) (start : Coord) : Option Coord :=
  match env.get_dirty_tiles with
  | [] => none
  | d :: ds => some (minByKey (fun pos => heuristic start pos) d ds)

/-! ## agents.py -/

/-- The perception dict built by `Agent.perceive`. -/
structure Perception where
  position : Coord
  tile_state : Nat
  neighbors : List Coord
  all_clean : Bool
  deriving DecidableEq, Repr

/-- `Agent.perceive` from agents.py. -/
def perceive (env : Environment) : Perception :=
  { position := env.robot_pos,
    tile_state := env.get_tile_state env.robot_pos.1 env.robot_pos.2,
    neighbors := env.get_neighbors env.robot_pos.1 env.robot_pos.2,
    all_clean := env.is_all_clean }

/-- The `(action_type, action_data)` pairs returned by the agents. -/
inductive AgentAction where
  | clean
  | move (pos : Coord)
  | wait
  deriving DecidableEq, Repr

/-- Mutable state of `SimpleReflexAgent` relevant to decisions: none. -/
def SimpleReflexAgent.act (per : Perception) (pick : List Coord → Coord) :
    AgentAction :=
  if per.tile_state = TileState.DIRTY then AgentAction.clean
  else if per.neighbors = [] then AgentAction.wait
  else AgentAction.move (pick per.neighbors)

/-- Mutable state of `ModelBasedAgent`.  `random.choice` is modelled by
the `pick` parameter of `act`. -/
structure ModelBasedState where
  cleaned_tiles : Finset Coord := ∅
  current_path : List Coord := []
  search_algorithm : String := "bfs"
  deriving DecidableEq

/-- `ModelBasedAgent.act` from agents.py, returning the action and the
agent's post-state.  `none` from the inner search block means the code
fell through to the random-move fallback. -/
def ModelBasedAgent.act (env : Environment) (st : ModelBasedState)
    (per : Perception) (pick : List Coord → Coord) :
    AgentAction × ModelBasedState :=
  if per.tile_state = TileState.DIRTY then
    (AgentAction.clean, { st with cleaned_tiles := insert per.position st.cleaned_tiles })
  else
    match st.current_path with
    | next :: restPath => (AgentAction.move next, { st with current_path := restPath })
    | [] =>
      let afterSearch : Option (AgentAction × ModelBasedState) :=
        match find_nearest_dirty_tile env per.position with
        | none => none
        | some nearest =>
          let result :=
            if st.search_algorithm = "bfs" then bfs env per.position nearest
            else astar env per.position nearest
          if result.found then
            match result.path with
            | next :: rest => some (AgentAction.move next, { st with current_path := rest })
            | [] => none
          else none
      match afterSearch with
      | some r => r
      | none =>
        let unvisited := per.neighbors.filter fun n => decide (n ∉ st.cleaned_tiles)
        if unvisited ≠ [] then (AgentAction.move (pick unvisited), st)
        else if per.neighbors ≠ [] then (AgentAction.move (pick per.neighbors), st)
        else (AgentAction.wait, st)

/-- Mutable state of `UtilityBasedAgent`. -/
structure UtilityBasedState where
  current_path : List Coord := []
  current_goal : Option Coord := none
  deriving DecidableEq

/-- The replanning tail of `UtilityBasedAgent.act` (from the
`find_nearest_dirty_tile` call to the end of the method). -/
def utilityReplan (env : Environment) (st : UtilityBasedState)
    (per : Perception) : AgentAction × UtilityBasedState :=
  match find_nearest_dirty_tile env per.position with
  | none => (AgentAction.wait, st)
  | some nearest =>
    let result := astar env per.position nearest
    if result.found then
      match result.path with
      | next :: rest =>
        (AgentAction.move next, { current_path := rest, current_goal := some nearest })
      | [] => (AgentAction.wait, { current_path := [], current_goal := some nearest })
    else (AgentAction.wait, st)

/-- `UtilityBasedAgent.act` from agents.py. -/
def UtilityBasedAgent.act (env : Environment) (st : UtilityBasedState)
    (per : Perception) : AgentAction × UtilityBasedState :=
  if per.tile_state = TileState.DIRTY then
    (AgentAction.clean, { current_path := [], current_goal := none })
  else
    match st.current_path, st.current_goal with
    | next :: rest, some goal =>
      if env.get_tile_state goal.1 goal.2 = TileState.DIRTY then
        (AgentAction.move next, { st with current_path := rest })
      else
        utilityReplan env { current_path := [], current_goal := none } per
    | _, _ => utilityReplan env st per

/-- Mutable state of `GoalBasedAgent`. -/
structure GoalBasedState where
  current_path : List Coord := []
  deriving DecidableEq

/-- `GoalBasedAgent.act` from agents.py. -/
def GoalBasedAgent.act (env : Environment) (st : GoalBasedState)
    (per : Perception) : AgentAction × GoalBasedState :=
  if per.tile_state = TileState.DIRTY then
    (AgentAction.clean, { current_path := [] })
  else
    match st.current_path with
    | next :: rest => (AgentAction.move next, { current_path := rest })
    | [] =>
      match env.get_dirty_tiles with
      | [] => (AgentAction.wait, st)
      | target :: _ =>
        let result := dfs env per.position target
        if result.found then
          match result.path with
          | next :: rest => (AgentAction.move next, { current_path := rest })
          | [] => (AgentAction.wait, st)
        else (AgentAction.wait, st)

/-! ## Basic facts about the environment operations -/

/-- A dirty reading cannot come from the out-of-range defaults, so it
pins the indices inside the actual grid lists. -/
theorem gridGet_dirty_bounds {env : Environment} {x y : Int}
    (h : gridGet env x y = TileState.DIRTY) :
    y.toNat < env.grid.length ∧
      x.toNat < (env.grid.getD y.toNat []).length := by
  constructor
  · by_contra hy
    push_neg at hy
    rw [gridGet, List.getD_eq_default _ _ hy] at h
    simp [List.getD, TileState.DIRTY, TileState.CLEAN] at h
  · by_contra hx
    push_neg at hx
    rw [gridGet, List.getD_eq_default _ _ hx] at h
    simp [TileState.DIRTY, TileState.CLEAN] at h

theorem gridGet_gridSet_self {env : Environment} {x y : Int} {v : Nat}
    (hy : y.toNat < env.grid.length)
    (hx : x.toNat < (env.grid.getD y.toNat []).length) :
    gridGet { env with grid := gridSet env x y v } x y = v := by
  have hy2 : y.toNat < (gridSet env x y v).length := by
    simpa [gridSet] using hy
  rw [gridGet]
  show ((gridSet env x y v).getD y.toNat []).getD x.toNat TileState.CLEAN = v
  rw [List.getD_eq_getElem _ _ hy2]
  simp only [gridSet]
  rw [List.getElem_set_self (by simpa using hy)]
  rw [List.getD_eq_getElem _ _ (by simpa using hx)]
  exact List.getElem_set_self (by simpa using hx)

/-- Claim C8 (environment move contract): `move_robot` succeeds exactly on
walkable targets, in which case only the robot position changes; on
failure the state is returned unchanged. -/
theorem claim_C8 (env : Environment) (x y : Int) :
    ((env.move_robot x y).1 = true ↔ env.is_walkable x y = true) ∧
    ((env.move_robot x y).1 = true →
      (env.move_robot x y).2 = { env with robot_pos := (x, y) }) ∧
    ((env.move_robot x y).1 = false → (env.move_robot x y).2 = env) := by
  by_cases h : env.is_walkable x y = true <;>
    simp [Environment.move_robot, h]

/-- Concrete 2×1 test world with a dirty right cell. -/
def testEnvA : Environment :=
  { width := 2, height := 1, grid := [[0, 1]], robot_pos := (0, 0),
    total_dirt := 1, cleaned_dirt := 0 }

theorem claim_C8_witness :
    (testEnvA.move_robot 1 0).2 = { testEnvA with robot_pos := (1, 0) } ∧
      (testEnvA.move_robot 5 5).2 = testEnvA :=
  ⟨(claim_C8 testEnvA 1 0).2.1 (by decide),
   (claim_C8 testEnvA 5 5).2.2 (by decide)⟩

theorem clean_eq_dirty {env : Environment}
    (h : gridGet env env.robot_pos.1 env.robot_pos.2 = TileState.DIRTY) :
    env.clean_current_tile =
      (true, { env with
        grid := gridSet env env.robot_pos.1 env.robot_pos.2 TileState.CLEAN,
        cleaned_dirt := env.cleaned_dirt + 1 }) := by
  simp only [Environment.clean_current_tile]
  rw [if_pos h]

theorem clean_eq_not_dirty {env : Environment}
    (h : gridGet env env.robot_pos.1 env.robot_pos.2 ≠ TileState.DIRTY) :
    env.clean_current_tile = (false, env) := by
  simp only [Environment.clean_current_tile]
  rw [if_neg h]

/-- The full contract of `clean_current_tile`, including the second-call
behaviour: success exactly on a dirty current tile, which becomes clean;
any immediately repeated call is a `false`-returning no-op. -/
theorem clean_contract (env : Environment) :
    (env.clean_current_tile.1 = true ↔
      gridGet env env.robot_pos.1 env.robot_pos.2 = TileState.DIRTY) ∧
    (gridGet env env.robot_pos.1 env.robot_pos.2 = TileState.DIRTY →
      env.clean_current_tile.2.cleaned_dirt = env.cleaned_dirt + 1 ∧
      gridGet env.clean_current_tile.2 env.robot_pos.1 env.robot_pos.2
        = TileState.CLEAN ∧
      env.clean_current_tile.2.robot_pos = env.robot_pos ∧
      env.clean_current_tile.2.total_dirt = env.total_dirt) ∧
    (gridGet env env.robot_pos.1 env.robot_pos.2 ≠ TileState.DIRTY →
      env.clean_current_tile.1 = false ∧ env.clean_current_tile.2 = env) ∧
    (env.clean_current_tile.2.clean_current_tile.1 = false ∧
      env.clean_current_tile.2.clean_current_tile.2 = env.clean_current_tile.2) := by
  by_cases hd : gridGet env env.robot_pos.1 env.robot_pos.2 = TileState.DIRTY
  · obtain ⟨hy, hx⟩ := gridGet_dirty_bounds hd
    have h1 := clean_eq_dirty hd
    have hclean :
        gridGet env.clean_current_tile.2 env.robot_pos.1 env.robot_pos.2
          = TileState.CLEAN := by
      rw [h1]
      exact gridGet_gridSet_self hy hx
    have hpos : env.clean_current_tile.2.robot_pos = env.robot_pos := by
      rw [h1]
    have hnd : gridGet env.clean_current_tile.2
        env.clean_current_tile.2.robot_pos.1
        env.clean_current_tile.2.robot_pos.2 ≠ TileState.DIRTY := by
      rw [hpos, hclean]
      simp [TileState.CLEAN, TileState.DIRTY]
    have h2 := clean_eq_not_dirty hnd
    exact ⟨by simp [h1, hd], fun _ => ⟨by rw [h1], hclean, hpos, by rw [h1]⟩,
      fun h => absurd hd h, by simp [h2], by simp [h2]⟩
  · have h1 := clean_eq_not_dirty hd
    have hnd2 : gridGet env.clean_current_tile.2
        env.clean_current_tile.2.robot_pos.1
        env.clean_current_tile.2.robot_pos.2 ≠ TileState.DIRTY := by
      rw [h1]
      exact hd
    have h2 := clean_eq_not_dirty hnd2
    exact ⟨by simp [h1, hd], fun h => absurd h hd, fun _ => by simp [h1],
      by simp [h2], by simp [h2]⟩

/-- 1×1 test world whose only tile is clean. -/
def testEnvB : Environment :=
  { width := 1, height := 1, grid := [[0]], robot_pos := (0, 0),
    total_dirt := 0, cleaned_dirt := 0 }

/-- Claim C7 as stated is false: when the robot stands on a tile that is
not dirty, calling `clean_current_tile` twice increments `cleaned_dirt`
zero times, not exactly once. -/
theorem claim_C7_counterexample :
    ¬ (testEnvB.clean_current_tile.2.clean_current_tile.2.cleaned_dirt
        = testEnvB.cleaned_dirt + 1) := by decide

/-- A dirty-tile variant of `testEnvA` (robot standing on the dirty cell). -/
def testEnvD : Environment :=
  { width := 2, height := 1, grid := [[0, 1]], robot_pos := (1, 0),
    total_dirt := 1, cleaned_dirt := 0 }

/-- Claim C7 (amended): `clean_current_tile` succeeds and increments
`cleaned_dirt` by one iff the current tile is dirty (which becomes clean);
otherwise it returns false changing nothing.  Consequently a second call
with no movement in between always returns false and changes nothing, so
the pair of calls increments `cleaned_dirt` once if the tile was dirty and
not at all otherwise. -/
theorem claim_C7 (env : Environment) :
    (env.clean_current_tile.1 = true ↔
      gridGet env env.robot_pos.1 env.robot_pos.2 = TileState.DIRTY) ∧
    (gridGet env env.robot_pos.1 env.robot_pos.2 = TileState.DIRTY →
      env.clean_current_tile.2.cleaned_dirt = env.cleaned_dirt + 1 ∧
      gridGet env.clean_current_tile.2 env.robot_pos.1 env.robot_pos.2
        = TileState.CLEAN) ∧
    (gridGet env env.robot_pos.1 env.robot_pos.2 ≠ TileState.DIRTY →
      env.clean_current_tile.1 = false ∧ env.clean_current_tile.2 = env) ∧
    env.clean_current_tile.2.clean_current_tile.1 = false ∧
    env.clean_current_tile.2.clean_current_tile.2.cleaned_dirt
      = env.cleaned_dirt +
        (if gridGet env env.robot_pos.1 env.robot_pos.2 = TileState.DIRTY
         then 1 else 0) := by
  obtain ⟨h1, h2, h3, h4, h5⟩ := clean_contract env
  refine ⟨h1, fun hd => ⟨((h2 hd).1), (h2 hd).2.1⟩, h3, h4, ?_⟩
  rw [h5]
  by_cases hd : gridGet env env.robot_pos.1 env.robot_pos.2 = TileState.DIRTY
  · rw [if_pos hd]
    exact (h2 hd).1
  · rw [if_neg hd, (h3 hd).2]
    rfl

theorem claim_C7_witness :
    gridGet testEnvD 1 0 = TileState.DIRTY ∧
      testEnvD.clean_current_tile.2.cleaned_dirt = testEnvD.cleaned_dirt + 1 :=
  ⟨by decide, ((claim_C7 testEnvD).2.1 (by decide)).1⟩

/-- Claim C6: with `start == goal` every search algorithm immediately
returns a successful result with an empty path and zero cost. -/
theorem claim_C6 (env : Environment) (c : Coord) :
    (bfs env c c).found = true ∧ (bfs env c c).path = [] ∧
      (bfs env c c).path_cost = 0 ∧
    (dfs env c c).found = true ∧ (dfs env c c).path = [] ∧
      (dfs env c c).path_cost = 0 ∧
    (astar env c c).found = true ∧ (astar env c c).path = [] ∧
      (astar env c c).path_cost = 0 := by
  simp [bfs, dfs, astar]

/-- External driver operations on the environment (the mutating calls the
orchestrator can make between decisions). -/
inductive EnvOp where
  | move (x y : Int)
  | clean

/-- Apply one operation, keeping only the post-state. -/
def applyOp (env : Environment) : EnvOp → Environment
  | EnvOp.move x y => (env.move_robot x y).2
  | EnvOp.clean => env.clean_current_tile.2

/-- Run a finite sequence of operations. -/
def runOps (env : Environment) (ops : List EnvOp) : Environment :=
  ops.foldl applyOp env

/-- The state invariant maintained by `move_robot` and
`clean_current_tile`. -/
def EnvInv (env : Environment) : Prop :=
  WFGrid env ∧
    env.is_valid_position env.robot_pos.1 env.robot_pos.2 = true ∧
    gridGet env env.robot_pos.1 env.robot_pos.2 ≠ TileState.OBSTACLE ∧
    env.cleaned_dirt + dirtyCount env = env.total_dirt

theorem sum_map_set {α : Type} (f : α → Nat) (l : List α) (i : Nat) (a : α)
    (h : i < l.length) :
    ((l.set i a).map f).sum + f l[i] = (l.map f).sum + f a := by
  induction l generalizing i with
  | nil => simp at h
  | cons x xs ih =>
    cases i with
    | zero => simp [Nat.add_comm, Nat.add_left_comm]
    | succ j =>
      have hj : j < xs.length := by simpa using h
      have := ih j hj
      simp only [List.set, List.map, List.sum_cons, List.getElem_cons_succ]
      omega

theorem countP_set (l : List Nat) (i : Nat) (v : Nat) (p : Nat → Bool)
    (h : i < l.length) :
    (l.set i v).countP p + (if p l[i] then 1 else 0)
      = l.countP p + (if p v then 1 else 0) := by
  induction l generalizing i with
  | nil => simp at h
  | cons x xs ih =>
    cases i with
    | zero =>
      by_cases hx : p x <;> by_cases hv : p v <;>
        simp [List.countP_cons, hx, hv]
    | succ j =>
      have hj : j < xs.length := by simpa using h
      have := ih j hj
      by_cases hx : p x <;>
        simp only [List.set, List.getElem_cons_succ, List.countP_cons, hx] <;>
        omega

theorem dirtyCount_clean {env : Environment}
    (hd : gridGet env env.robot_pos.1 env.robot_pos.2 = TileState.DIRTY) :
    dirtyCount env.clean_current_tile.2 + 1 = dirtyCount env := by
  obtain ⟨hy, hx⟩ := gridGet_dirty_bounds hd
  have h1 := sum_map_set (fun r => r.countP fun t => t == TileState.DIRTY)
    env.grid env.robot_pos.2.toNat
    ((env.grid.getD env.robot_pos.2.toNat []).set env.robot_pos.1.toNat
      TileState.CLEAN) hy
  have h2 := countP_set (env.grid.getD env.robot_pos.2.toNat [])
    env.robot_pos.1.toNat TileState.CLEAN (fun t => t == TileState.DIRTY) hx
  have hxval : (env.grid.getD env.robot_pos.2.toNat
      [])[env.robot_pos.1.toNat] = TileState.DIRTY := by
    rw [← List.getD_eq_getElem _ TileState.CLEAN hx]
    exact hd
  rw [hxval] at h2
  have e1 : (if ((fun t : Nat => t == TileState.DIRTY) TileState.DIRTY) = true
      then (1 : Nat) else 0) = 1 := rfl
  have e2 : (if ((fun t : Nat => t == TileState.DIRTY) TileState.CLEAN) = true
      then (1 : Nat) else 0) = 0 := rfl
  rw [e1, e2] at h2
  have hrow : env.grid[env.robot_pos.2.toNat]
      = env.grid.getD env.robot_pos.2.toNat [] :=
    (List.getD_eq_getElem _ _ hy).symm
  rw [hrow] at h1
  rw [clean_eq_dirty hd]
  simp only [dirtyCount, gridSet]
  omega

theorem envInv_clean {env : Environment} (h : EnvInv env) :
    EnvInv env.clean_current_tile.2 := by
  obtain ⟨⟨hlen, hrows⟩, hvalid, hnotobs, hcount⟩ := h
  by_cases hd : gridGet env env.robot_pos.1 env.robot_pos.2 = TileState.DIRTY
  · obtain ⟨hy, hx⟩ := gridGet_dirty_bounds hd
    have hdc := dirtyCount_clean hd
    have h1 := clean_eq_dirty hd
    have hcl : gridGet env.clean_current_tile.2 env.robot_pos.1
        env.robot_pos.2 = TileState.CLEAN := by
      rw [h1]
      exact gridGet_gridSet_self hy hx
    refine ⟨⟨?_, ?_⟩, ?_, ?_, ?_⟩
    · rw [h1]
      simpa [gridSet] using hlen
    · intro row' hrow'
      rw [h1] at hrow' ⊢
      simp only [gridSet] at hrow'
      rcases List.mem_or_eq_of_mem_set hrow' with hm | he
      · exact hrows row' hm
      · rw [he, List.length_set]
        refine hrows (env.grid.getD env.robot_pos.2.toNat []) ?_
        rw [List.getD_eq_getElem _ _ hy]
        exact List.getElem_mem hy
    · rw [h1]
      exact hvalid
    · have hpos : env.clean_current_tile.2.robot_pos = env.robot_pos := by
        rw [h1]
      rw [hpos, hcl]
      simp [TileState.CLEAN, TileState.OBSTACLE]
    · have hcd : env.clean_current_tile.2.cleaned_dirt
          = env.cleaned_dirt + 1 := by rw [h1]
      have htd : env.clean_current_tile.2.total_dirt = env.total_dirt := by
        rw [h1]
      omega
  · rw [clean_eq_not_dirty hd]
    exact ⟨⟨hlen, hrows⟩, hvalid, hnotobs, hcount⟩

theorem envInv_move {env : Environment} (h : EnvInv env) (x y : Int) :
    EnvInv (env.move_robot x y).2 := by
  obtain ⟨hwf, hvalid, hnotobs, hcount⟩ := h
  by_cases hw : env.is_walkable x y = true
  · have h1 : (env.move_robot x y).2 = { env with robot_pos := (x, y) } := by
      simp [Environment.move_robot, hw]
    rw [h1]
    have hw2 := hw
    simp only [Environment.is_walkable, Bool.and_eq_true, decide_eq_true_eq] at hw2
    exact ⟨hwf, hw2.1, hw2.2, hcount⟩
  · have h1 : (env.move_robot x y).2 = env := by
      simp [Environment.move_robot, hw]
    rw [h1]
    exact ⟨hwf, hvalid, hnotobs, hcount⟩

theorem validInit_envInv {env : Environment} (h : ValidInit env) : EnvInv env := by
  obtain ⟨hw, hh, hwf, hpos, hclean, hcd, htd⟩ := h
  refine ⟨hwf, ?_, ?_, ?_⟩
  · rw [hpos]
    simp only [Environment.is_valid_position, decide_eq_true_eq]
    refine ⟨le_refl 0, ?_, le_refl 0, ?_⟩ <;> exact_mod_cast by omega
  · rw [hpos]
    simp only
    rw [hclean]
    simp [TileState.CLEAN, TileState.OBSTACLE]
  · omega

theorem runOps_envInv {env : Environment} (h : EnvInv env) (ops : List EnvOp) :
    EnvInv (runOps env ops) := by
  induction ops generalizing env with
  | nil => exact h
  | cons op ops ih =>
    have hstep : EnvInv (applyOp env op) := by
      cases op with
      | move x y => exact envInv_move h x y
      | clean => exact envInv_clean h
    exact ih hstep

/-- Claim C5: from any freshly initialised world, any finite sequence of
`move_robot` / `clean_current_tile` calls keeps `cleaned_dirt ≤ total_dirt`
and keeps the robot in bounds and off obstacles. -/
theorem claim_C5 (env : Environment) (h : ValidInit env) (ops : List EnvOp) :
    (runOps env ops).cleaned_dirt ≤ (runOps env ops).total_dirt ∧
    (runOps env ops).is_valid_position (runOps env ops).robot_pos.1
      (runOps env ops).robot_pos.2 = true ∧
    gridGet (runOps env ops) (runOps env ops).robot_pos.1
      (runOps env ops).robot_pos.2 ≠ TileState.OBSTACLE := by
  obtain ⟨_, hvalid, hnotobs, hcount⟩ := runOps_envInv (validInit_envInv h) ops
  exact ⟨by omega, hvalid, hnotobs⟩

theorem claim_C5_witness :
    ValidInit testEnvB ∧
      (runOps testEnvB [EnvOp.clean, EnvOp.move 0 0, EnvOp.move 5 5]).cleaned_dirt
        ≤ (runOps testEnvB [EnvOp.clean, EnvOp.move 0 0, EnvOp.move 5 5]).total_dirt :=
  ⟨by decide,
   (claim_C5 testEnvB (by decide) [EnvOp.clean, EnvOp.move 0 0, EnvOp.move 5 5]).1⟩

theorem minByKey_cons (key : Coord → Nat) (x a : Coord) (xs : List Coord) :
    minByKey key x (a :: xs)
      = minByKey key (if key a < key x then a else x) xs := rfl

/-- Python first-minimum semantics of `min` with a key function: the
result occurs in the list, has a minimal key, and every element strictly
before it has a strictly larger key. -/
theorem minByKey_spec (key : Coord → Nat) (x : Coord) (xs : List Coord) :
    ∃ l1 l2, x :: xs = l1 ++ minByKey key x xs :: l2 ∧
      (∀ a ∈ x :: xs, key (minByKey key x xs) ≤ key a) ∧
      (∀ a ∈ l1, key (minByKey key x xs) < key a) := by
  induction xs generalizing x with
  | nil =>
    refine ⟨[], [], rfl, ?_, by simp⟩
    intro a ha
    rcases List.mem_singleton.mp ha with rfl
    exact le_refl _
  | cons a xs ih =>
    rw [minByKey_cons]
    by_cases h : key a < key x
    · rw [if_pos h]
      obtain ⟨l1, l2, heq, hle, hlt⟩ := ih a
      have hma : key (minByKey key a xs) ≤ key a :=
        hle a (List.mem_cons_self _ _)
      refine ⟨x :: l1, l2, by rw [List.cons_append, ← heq], ?_, ?_⟩
      · intro c hc
        rcases List.mem_cons.mp hc with rfl | hc
        · exact le_of_lt (lt_of_le_of_lt hma h)
        · exact hle c hc
      · intro c hc
        rcases List.mem_cons.mp hc with rfl | hc
        · exact lt_of_le_of_lt hma h
        · exact hlt c hc
    · rw [if_neg h]
      have hxa : key x ≤ key a := le_of_not_lt h
      obtain ⟨l1, l2, heq, hle, hlt⟩ := ih x
      cases l1 with
      | nil =>
        rw [List.nil_append] at heq
        injection heq with hm hxs
        refine ⟨[], a :: xs, ?_, ?_, by simp⟩
        · rw [List.nil_append, ← hm]
        · intro c hc
          rcases List.mem_cons.mp hc with rfl | hc
          · rw [← hm]
          · rcases List.mem_cons.mp hc with rfl | hc
            · rw [← hm]
              exact hxa
            · exact hle c (List.mem_cons_of_mem x hc)
      | cons p t =>
        have hp : p = x := List.head_eq_of_cons_eq heq.symm
        have hxs : xs = t ++ minByKey key x xs :: l2 :=
          List.tail_eq_of_cons_eq heq
        have hmx : key (minByKey key x xs) < key x := by
          refine hlt x ?_
          rw [hp]
          exact List.mem_cons_self _ _
        refine ⟨x :: a :: t, l2, ?_, ?_, ?_⟩
        · rw [List.cons_append, List.cons_append, ← hxs]
        · intro c hc
          rcases List.mem_cons.mp hc with rfl | hc
          · exact le_of_lt hmx
          · rcases List.mem_cons.mp hc with rfl | hc
            · exact le_of_lt (lt_of_lt_of_le hmx hxa)
            · exact hle c (List.mem_cons_of_mem x hc)
        · intro c hc
          rcases List.mem_cons.mp hc with rfl | hc
          · exact hmx
          · rcases List.mem_cons.mp hc with rfl | hc
            · exact lt_of_lt_of_le hmx hxa
            · refine hlt c ?_
              rw [hp]
              exact List.mem_cons_of_mem x hc

/-- Membership in `get_dirty_tiles`: exactly the in-bounds coordinates
whose tile is dirty. -/
theorem mem_get_dirty_tiles (env : Environment) (u : Coord) :
    u ∈ env.get_dirty_tiles ↔
      ∃ x y : Nat, x < env.width ∧ y < env.height ∧
        u = ((x : Int), (y : Int)) ∧
        gridGet env (x : Int) (y : Int) = TileState.DIRTY := by
  unfold Environment.get_dirty_tiles
  rw [List.mem_flatten]
  constructor
  · rintro ⟨l, hl, hu⟩
    rw [List.mem_map] at hl
    obtain ⟨y, hy, rfl⟩ := hl
    rw [List.mem_range] at hy
    rw [List.mem_filterMap] at hu
    obtain ⟨x, hx, hxu⟩ := hu
    rw [List.mem_range] at hx
    by_cases hdirty : gridGet env (x : Int) (y : Int) = TileState.DIRTY
    · rw [if_pos hdirty] at hxu
      exact ⟨x, y, hx, hy, (Option.some_inj.mp hxu).symm, hdirty⟩
    · rw [if_neg hdirty] at hxu
      cases hxu
  · rintro ⟨x, y, hx, hy, rfl, hdirty⟩
    refine ⟨_, List.mem_map.mpr ⟨y, List.mem_range.mpr hy, rfl⟩, ?_⟩
    rw [List.mem_filterMap]
    exact ⟨x, List.mem_range.mpr hx, by rw [if_pos hdirty]⟩

/-- Strict row-major (scan) order on coordinates: later row, or same row
and later column. -/
def rowMajorLt (a b : Coord) : Prop :=
  a.2 < b.2 ∨ (a.2 = b.2 ∧ a.1 < b.1)

/-- `get_dirty_tiles` enumerates in strictly increasing row-major order. -/
theorem get_dirty_tiles_pairwise (env : Environment) :
    env.get_dirty_tiles.Pairwise rowMajorLt := by
  unfold Environment.get_dirty_tiles
  rw [List.pairwise_flatten]
  refine ⟨?_, ?_⟩
  · intro l hl
    rw [List.mem_map] at hl
    obtain ⟨y, _, rfl⟩ := hl
    refine List.Pairwise.filterMap _ ?_ (List.pairwise_lt_range env.width)
    intro a b hab u hu v hv
    have hu2 : u = ((a : Int), (y : Int)) := by
      by_cases h1 : gridGet env (a : Int) (y : Int) = TileState.DIRTY
      · rw [if_pos h1] at hu
        exact (Option.some_inj.mp hu).symm
      · rw [if_neg h1] at hu
        cases hu
    have hv2 : v = ((b : Int), (y : Int)) := by
      by_cases h2 : gridGet env (b : Int) (y : Int) = TileState.DIRTY
      · rw [if_pos h2] at hv
        exact (Option.some_inj.mp hv).symm
      · rw [if_neg h2] at hv
        cases hv
    rw [hu2, hv2]
    refine Or.inr ⟨rfl, ?_⟩
    show (a : Int) < (b : Int)
    exact_mod_cast hab
  · rw [List.pairwise_map]
    refine (List.pairwise_lt_range env.height).imp ?_
    intro y1 y2 h12 u hu v hv
    rw [List.mem_filterMap] at hu hv
    obtain ⟨x1, _, hx1⟩ := hu
    obtain ⟨x2, _, hx2⟩ := hv
    have hu2 : u = ((x1 : Int), (y1 : Int)) := by
      by_cases h1 : gridGet env (x1 : Int) (y1 : Int) = TileState.DIRTY
      · rw [if_pos h1] at hx1
        exact (Option.some_inj.mp hx1).symm
      · rw [if_neg h1] at hx1
        cases hx1
    have hv2 : v = ((x2 : Int), (y2 : Int)) := by
      by_cases h2 : gridGet env (x2 : Int) (y2 : Int) = TileState.DIRTY
      · rw [if_pos h2] at hx2
        exact (Option.some_inj.mp hx2).symm
      · rw [if_neg h2] at hx2
        cases hx2
    rw [hu2, hv2]
    refine Or.inl ?_
    show (y1 : Int) < (y2 : Int)
    exact_mod_cast h12

/-- Claim C9: `find_nearest_dirty_tile` returns `none` iff there is no
dirty cell; otherwise it returns a dirty cell of minimal Manhattan
distance, and among equally near dirty cells the one earliest in the
row-major enumeration (which `get_dirty_tiles` produces in strictly
increasing row-major order). -/
theorem claim_C9 (env : Environment) (start : Coord) :
    (env.get_dirty_tiles = [] → find_nearest_dirty_tile env start = none) ∧
    (∀ u : Coord, u ∈ env.get_dirty_tiles ↔
      ∃ x y : Nat, x < env.width ∧ y < env.height ∧
        u = ((x : Int), (y : Int)) ∧
        gridGet env (x : Int) (y : Int) = TileState.DIRTY) ∧
    env.get_dirty_tiles.Pairwise rowMajorLt ∧
    (env.get_dirty_tiles ≠ [] → ∃ t l1 l2,
      find_nearest_dirty_tile env start = some t ∧
      env.get_dirty_tiles = l1 ++ t :: l2 ∧
      (∀ u ∈ env.get_dirty_tiles, heuristic start t ≤ heuristic start u) ∧
      (∀ u ∈ l1, heuristic start t < heuristic start u)) := by
  refine ⟨?_, mem_get_dirty_tiles env, get_dirty_tiles_pairwise env, ?_⟩
  · intro h
    simp [find_nearest_dirty_tile, h]
  · intro h
    rcases hdt : env.get_dirty_tiles with _ | ⟨d, ds⟩
    · exact absurd hdt h
    · obtain ⟨l1, l2, heq, hle, hlt⟩ :=
        minByKey_spec (fun pos => heuristic start pos) d ds
      refine ⟨minByKey (fun pos => heuristic start pos) d ds, l1, l2, ?_, ?_, ?_, hlt⟩
      · simp [find_nearest_dirty_tile, hdt]
      · exact heq
      · intro u hu
        exact hle u hu

/-- 3×3 test world with two dirty cells equidistant from the origin. -/
def testEnvE : Environment :=
  { width := 3, height := 3, grid := [[0, 0, 1], [0, 0, 0], [1, 0, 0]],
    robot_pos := (0, 0), total_dirt := 2, cleaned_dirt := 0 }

theorem claim_C9_witness :
    ∃ t l1 l2,
      find_nearest_dirty_tile testEnvE (0, 0) = some t ∧
      testEnvE.get_dirty_tiles = l1 ++ t :: l2 ∧
      (∀ u ∈ testEnvE.get_dirty_tiles,
        heuristic (0, 0) t ≤ heuristic (0, 0) u) ∧
      (∀ u ∈ l1, heuristic (0, 0) t < heuristic (0, 0) u) :=
  (claim_C9 testEnvE (0, 0)).2.2.2 (by decide)

theorem utilityReplan_ne_clean (env : Environment) (st : UtilityBasedState)
    (per : Perception) :
    (utilityReplan env st per).1 ≠ AgentAction.clean := by
  unfold utilityReplan
  rcases find_nearest_dirty_tile env per.position with _ | nd
  · simp
  · simp only
    split
    · rcases (astar env per.position nd).path with _ | ⟨nx, rest⟩ <;> simp
    · simp

/-- A `ModelBasedState` with a pending two-cell path, used to exhibit the
missing path-clearing in `ModelBasedAgent.act`. -/
def mbSt : ModelBasedState :=
  { cleaned_tiles := ∅, current_path := [(9, 9)], search_algorithm := "bfs" }

/-- Claim C4 as stated is false for the mapped-avoidance (ModelBased)
variant: with the robot on a dirty tile and a cached pending path, `act`
returns `Clean` but leaves the cached path in place. -/
theorem claim_C4_counterexample :
    (ModelBasedAgent.act testEnvD mbSt (perceive testEnvD)
        (fun l => l.headD (0, 0))).1 = AgentAction.clean ∧
      (ModelBasedAgent.act testEnvD mbSt (perceive testEnvD)
        (fun l => l.headD (0, 0))).2.current_path ≠ [] := by decide

/-- Claim C4 (amended): every variant returns `Clean` exactly when the
perceived tile is dirty.  On cleaning, the utility-based variant clears
both its cached path and goal and the goal-based variant clears its cached
path; the reactive variant holds no cache; the mapped-avoidance
(ModelBased) variant does NOT clear its cached path — it only records the
position in its cleaned-tile memory. -/
theorem claim_C4 (env : Environment) (per : Perception)
    (pick : List Coord → Coord) (mb : ModelBasedState)
    (ub : UtilityBasedState) (gb : GoalBasedState) :
    (SimpleReflexAgent.act per pick = AgentAction.clean ↔
      per.tile_state = TileState.DIRTY) ∧
    ((ModelBasedAgent.act env mb per pick).1 = AgentAction.clean ↔
      per.tile_state = TileState.DIRTY) ∧
    ((UtilityBasedAgent.act env ub per).1 = AgentAction.clean ↔
      per.tile_state = TileState.DIRTY) ∧
    ((GoalBasedAgent.act env gb per).1 = AgentAction.clean ↔
      per.tile_state = TileState.DIRTY) ∧
    (per.tile_state = TileState.DIRTY →
      (UtilityBasedAgent.act env ub per).2.current_path = [] ∧
      (UtilityBasedAgent.act env ub per).2.current_goal = none ∧
      (GoalBasedAgent.act env gb per).2.current_path = [] ∧
      (ModelBasedAgent.act env mb per pick).2.current_path = mb.current_path ∧
      (ModelBasedAgent.act env mb per pick).2.cleaned_tiles
        = insert per.position mb.cleaned_tiles) := by
  by_cases hd : per.tile_state = TileState.DIRTY
  · refine ⟨?_, ?_, ?_, ?_, ?_⟩
    · simp [SimpleReflexAgent.act, hd]
    · simp [ModelBasedAgent.act, hd]
    · simp [UtilityBasedAgent.act, hd]
    · simp [GoalBasedAgent.act, hd]
    · intro _
      refine ⟨?_, ?_, ?_, ?_, ?_⟩ <;>
        simp [UtilityBasedAgent.act, GoalBasedAgent.act, ModelBasedAgent.act, hd]
  · have hsr : SimpleReflexAgent.act per pick ≠ AgentAction.clean := by
      simp only [SimpleReflexAgent.act, if_neg hd]
      split <;> simp
    have hmb : (ModelBasedAgent.act env mb per pick).1 ≠ AgentAction.clean := by
      simp only [ModelBasedAgent.act, if_neg hd]
      rcases mb.current_path with _ | ⟨nx, rest⟩
      · simp only
        split
        · rename_i r heq
          repeat' split at heq
          all_goals cases heq
          all_goals simp
        · split
          · simp
          · split <;> simp
      · simp
    have hub : (UtilityBasedAgent.act env ub per).1 ≠ AgentAction.clean := by
      simp only [UtilityBasedAgent.act, if_neg hd]
      rcases ub.current_path with _ | ⟨nx, rest⟩
      · exact utilityReplan_ne_clean env ub per
      · rcases ub.current_goal with _ | g
        · exact utilityReplan_ne_clean env ub per
        · simp only
          split
          · simp
          · exact utilityReplan_ne_clean env _ per
    have hgb : (GoalBasedAgent.act env gb per).1 ≠ AgentAction.clean := by
      simp only [GoalBasedAgent.act, if_neg hd]
      rcases gb.current_path with _ | ⟨nx, rest⟩
      · simp only
        rcases env.get_dirty_tiles with _ | ⟨t, ts⟩
        · simp
        · simp only
          split
          · split <;> simp
          · simp
      · simp
    exact ⟨by simp [hsr, hd], by simp [hmb, hd], by simp [hub, hd],
      by simp [hgb, hd], fun h => absurd h hd⟩

theorem claim_C4_witness :
    (UtilityBasedAgent.act testEnvD ⟨[(9, 9)], some (1, 0)⟩
        (perceive testEnvD)).2.current_path = [] ∧
      (UtilityBasedAgent.act testEnvD ⟨[(9, 9)], some (1, 0)⟩
        (perceive testEnvD)).2.current_goal = none ∧
      (GoalBasedAgent.act testEnvD ⟨[(9, 9)]⟩
        (perceive testEnvD)).2.current_path = [] :=
  have h := (claim_C4 testEnvD (perceive testEnvD) (fun l => l.headD (0, 0))
    { cleaned_tiles := ∅, current_path := [], search_algorithm := "bfs" }
    ⟨[(9, 9)], some (1, 0)⟩ ⟨[(9, 9)]⟩).2.2.2.2 (by decide)
  ⟨h.1, h.2.1, h.2.2.1⟩

/-! ## Paths, reachability and hop distance over the walkable grid -/

/-- `isPath env a p b`: the list `p` is the sequence of cells stepped
through after leaving `a`, each a walkable 4-neighbour of its predecessor,
ending at `b`.  The empty path means `a = b`. -/
def isPath (env : Environment) : Coord → List Coord → Coord → Prop
  | a, [], b => a = b
  | a, c :: p, b => c ∈ env.get_neighbors a.1 a.2 ∧ isPath env c p b

instance (env : Environment) (a : Coord) (p : List Coord) (b : Coord) :
    Decidable (isPath env a p b) := by
  induction p generalizing a with
  | nil => exact inferInstanceAs (Decidable (a = b))
  | cons c q ih =>
    exact @instDecidableAnd _ _ _ (ih c)

/-- A walkable path from `a` to `b` exists. -/
def Reachable (env : Environment) (a b : Coord) : Prop :=
  ∃ p, isPath env a p b

/-- The minimum hop count over walkable paths from `a` to `b` (the
mathematical oracle the spec's shortest-path claims refer to). -/
noncomputable def hopDist (env : Environment) (a b : Coord) : Nat :=
  sInf {n | ∃ p, isPath env a p b ∧ p.length = n}

theorem isPath_nil {env : Environment} {a b : Coord} :
    isPath env a [] b ↔ a = b := Iff.rfl

theorem isPath_append {env : Environment} {a b : Coord} (p q : List Coord) :
    isPath env a (p ++ q) b ↔ ∃ m, isPath env a p m ∧ isPath env m q b := by
  induction p generalizing a with
  | nil =>
    simp only [List.nil_append, isPath_nil]
    constructor
    · intro h
      exact ⟨a, rfl, h⟩
    · rintro ⟨m, rfl, h⟩
      exact h
  | cons c p ih =>
    simp only [List.cons_append, isPath]
    constructor
    · rintro ⟨hc, h⟩
      obtain ⟨m, h1, h2⟩ := ih.mp h
      exact ⟨m, ⟨hc, h1⟩, h2⟩
    · rintro ⟨m, ⟨hc, h1⟩, h2⟩
      exact ⟨hc, ih.mpr ⟨m, h1, h2⟩⟩

theorem isPath_snoc {env : Environment} {a m b : Coord} {p : List Coord}
    (hp : isPath env a p m) (hb : b ∈ env.get_neighbors m.1 m.2) :
    isPath env a (p ++ [b]) b := by
  rw [isPath_append]
  exact ⟨m, hp, hb, rfl⟩

theorem reachable_refl (env : Environment) (a : Coord) : Reachable env a a :=
  ⟨[], rfl⟩

theorem reachable_step {env : Environment} {a u v : Coord}
    (h : Reachable env a u) (hv : v ∈ env.get_neighbors u.1 u.2) :
    Reachable env a v := by
  obtain ⟨p, hp⟩ := h
  exact ⟨p ++ [v], isPath_snoc hp hv⟩

theorem hopDist_le {env : Environment} {a b : Coord} {p : List Coord}
    (h : isPath env a p b) : hopDist env a b ≤ p.length :=
  Nat.sInf_le ⟨p, h, rfl⟩

theorem hopDist_spec {env : Environment} {a b : Coord}
    (h : Reachable env a b) :
    ∃ p, isPath env a p b ∧ p.length = hopDist env a b := by
  obtain ⟨p, hp⟩ := h
  have hne : {n | ∃ q, isPath env a q b ∧ q.length = n}.Nonempty :=
    ⟨p.length, p, hp, rfl⟩
  exact Nat.sInf_mem hne

theorem hopDist_self (env : Environment) (a : Coord) : hopDist env a a = 0 :=
  Nat.le_zero.mp (hopDist_le (isPath_nil.mpr rfl))

theorem hopDist_eq_zero {env : Environment} {a b : Coord}
    (h : Reachable env a b) (h0 : hopDist env a b = 0) : a = b := by
  obtain ⟨p, hp, hlen⟩ := hopDist_spec h
  rw [h0, List.length_eq_zero] at hlen
  rw [hlen] at hp
  exact isPath_nil.mp hp

theorem hopDist_step_le {env : Environment} {a u v : Coord}
    (h : Reachable env a u) (hv : v ∈ env.get_neighbors u.1 u.2) :
    hopDist env a v ≤ hopDist env a u + 1 := by
  obtain ⟨p, hp, hlen⟩ := hopDist_spec h
  have := hopDist_le (isPath_snoc hp hv)
  simpa [hlen] using this

/-- A shortest path of positive length decomposes into a shortest path to
a neighbour-predecessor of the target. -/
theorem hopDist_pred {env : Environment} {a m : Coord} {j : Nat}
    (h : Reachable env a m) (hd : hopDist env a m = j + 1) :
    ∃ w, Reachable env a w ∧ hopDist env a w = j ∧
      m ∈ env.get_neighbors w.1 w.2 := by
  obtain ⟨p, hp, hlen⟩ := hopDist_spec h
  rw [hd] at hlen
  have hne : p ≠ [] := by
    intro h0
    rw [h0] at hlen
    simp at hlen
  have hsplit : p.dropLast ++ [p.getLast hne] = p :=
    List.dropLast_append_getLast hne
  rw [← hsplit, isPath_append] at hp
  obtain ⟨w, hw, hnb, hm⟩ := hp
  rw [isPath_nil] at hm
  rw [hm] at hnb
  have hlen2 : p.dropLast.length = j := by
    have h2 := congrArg List.length hsplit
    simp only [List.length_append, List.length_singleton] at h2
    omega
  have hle : hopDist env a w ≤ j := by
    rw [← hlen2]
    exact hopDist_le hw
  refine ⟨w, ⟨p.dropLast, hw⟩, ?_, hnb⟩
  rcases lt_or_eq_of_le hle with hlt | heq
  · exfalso
    have h1 : hopDist env a m ≤ hopDist env a w + 1 :=
      hopDist_step_le ⟨p.dropLast, hw⟩ hnb
    omega
  · exact heq

theorem mem_get_neighbors_walkable {env : Environment} {x y : Int} {v : Coord}
    (h : v ∈ env.get_neighbors x y) : env.is_walkable v.1 v.2 = true := by
  rw [Environment.get_neighbors, List.mem_filterMap] at h
  obtain ⟨d, _, he⟩ := h
  simp only at he
  split at he
  · rename_i hw
    cases he
    exact hw
  · cases he

theorem mem_get_neighbors_adjacent {env : Environment} {x y : Int} {v : Coord}
    (h : v ∈ env.get_neighbors x y) :
    (v.1 - x).natAbs + (v.2 - y).natAbs = 1 := by
  rw [Environment.get_neighbors, List.mem_filterMap] at h
  obtain ⟨d, hd, he⟩ := h
  simp only at he
  split at he
  · cases he
    fin_cases hd <;> simp
  · cases he

/-- All in-bounds cells of the grid, as a finite set of coordinates. -/
def validCells (env : Environment) : Finset Coord :=
  ((Finset.range env.width) ×ˢ (Finset.range env.height)).image
    fun p => ((p.1 : Int), (p.2 : Int))

theorem validCells_card (env : Environment) :
    (validCells env).card ≤ env.width * env.height := by
  refine le_trans (Finset.card_image_le) ?_
  rw [Finset.card_product, Finset.card_range, Finset.card_range]

theorem mem_validCells_of_walkable {env : Environment} {v : Coord}
    (h : env.is_walkable v.1 v.2 = true) : v ∈ validCells env := by
  rw [Environment.is_walkable, Bool.and_eq_true] at h
  have h1 := h.1
  rw [Environment.is_valid_position, decide_eq_true_eq] at h1
  obtain ⟨hx0, hxw, hy0, hyh⟩ := h1
  rw [validCells, Finset.mem_image]
  refine ⟨(v.1.toNat, v.2.toNat), ?_, ?_⟩
  · rw [Finset.mem_product, Finset.mem_range, Finset.mem_range]
    exact ⟨by omega, by omega⟩
  · simp only
    rw [Int.toNat_of_nonneg hx0, Int.toNat_of_nonneg hy0]

/-- One breadth expansion step: a set of cells together with all their
walkable neighbours. -/
def expandSet (env : Environment) (s : Finset Coord) : Finset Coord :=
  s ∪ s.biUnion fun c => (env.get_neighbors c.1 c.2).toFinset

/-- Cells reachable from `a` in at most `n` hops (computable breadth
oracle used to decide reachability on concrete grids). -/
def levelSet (env : Environment) (a : Coord) (n : Nat) : Finset Coord :=
  (expandSet env)^[n] {a}

theorem levelSet_succ (env : Environment) (a : Coord) (n : Nat) :
    levelSet env a (n + 1) = expandSet env (levelSet env a n) := by
  rw [levelSet, Function.iterate_succ_apply']
  rfl

theorem subset_expandSet (env : Environment) (s : Finset Coord) :
    s ⊆ expandSet env s :=
  Finset.subset_union_left

theorem mem_levelSet {env : Environment} {a b : Coord} {n : Nat} :
    b ∈ levelSet env a n ↔ ∃ p, isPath env a p b ∧ p.length ≤ n := by
  induction n generalizing b with
  | zero =>
    simp only [levelSet, Function.iterate_zero, id_eq, Finset.mem_singleton]
    constructor
    · rintro rfl
      exact ⟨[], isPath_nil.mpr rfl, by simp⟩
    · rintro ⟨p, hp, hlen⟩
      rw [Nat.le_zero, List.length_eq_zero] at hlen
      rw [hlen] at hp
      exact (isPath_nil.mp hp).symm
  | succ n ih =>
    rw [levelSet_succ, expandSet, Finset.mem_union, Finset.mem_biUnion]
    constructor
    · rintro (hb | ⟨c, hc, hb⟩)
      · obtain ⟨p, hp, hlen⟩ := ih.mp hb
        exact ⟨p, hp, le_trans hlen (Nat.le_succ n)⟩
      · obtain ⟨p, hp, hlen⟩ := ih.mp hc
        rw [List.mem_toFinset] at hb
        exact ⟨p ++ [b], isPath_snoc hp hb, by
          rw [List.length_append]
          simpa using Nat.add_le_add hlen (le_refl 1)⟩
    · rintro ⟨p, hp, hlen⟩
      rcases List.eq_nil_or_concat p with rfl | ⟨q, c, rfl⟩
      · left
        refine ih.mpr ⟨[], hp, by simp⟩
      · rw [List.concat_eq_append] at hp hlen
        rw [isPath_append] at hp
        obtain ⟨m, hq, hc, hcb⟩ := hp
        rw [isPath_nil] at hcb
        subst hcb
        right
        refine ⟨m, ih.mpr ⟨q, hq, ?_⟩, ?_⟩
        · rw [List.length_append] at hlen
          simpa using Nat.le_of_succ_le_succ (by simpa using hlen)
        · rw [List.mem_toFinset]
          exact hc

theorem levelSet_mono_succ (env : Environment) (a : Coord) (n : Nat) :
    levelSet env a n ⊆ levelSet env a (n + 1) := by
  rw [levelSet_succ]
  exact subset_expandSet env _

theorem levelSet_mono {env : Environment} {a : Coord} {m n : Nat}
    (h : m ≤ n) : levelSet env a m ⊆ levelSet env a n := by
  induction n with
  | zero =>
    rw [Nat.le_zero] at h
    rw [h]
  | succ n ih =>
    rcases Nat.lt_or_ge m (n + 1) with hlt | hge
    · exact subset_trans (ih (Nat.lt_succ_iff.mp hlt)) (levelSet_mono_succ env a n)
    · have : m = n + 1 := le_antisymm h hge
      rw [this]

theorem levelSet_subset_validCells (env : Environment) (a : Coord) (n : Nat) :
    levelSet env a n ⊆ insert a (validCells env) := by
  induction n with
  | zero =>
    intro b hb
    rw [levelSet, Function.iterate_zero, id_eq, Finset.mem_singleton] at hb
    rw [hb]
    exact Finset.mem_insert_self a _
  | succ n ih =>
    rw [levelSet_succ, expandSet]
    intro b hb
    rw [Finset.mem_union] at hb
    rcases hb with hb | hb
    · exact ih hb
    · rw [Finset.mem_biUnion] at hb
      obtain ⟨c, _, hb⟩ := hb
      rw [List.mem_toFinset] at hb
      exact Finset.mem_insert_of_mem
        (mem_validCells_of_walkable (mem_get_neighbors_walkable hb))

theorem levelSet_stable {env : Environment} {a : Coord} {k : Nat}
    (h : levelSet env a (k + 1) = levelSet env a k) :
    ∀ m, k ≤ m → levelSet env a m = levelSet env a k := by
  intro m hm
  induction m with
  | zero =>
    rw [Nat.le_zero] at hm
    rw [hm]
  | succ m ih =>
    rcases Nat.lt_or_ge k (m + 1) with hlt | hge
    · have hkm : k ≤ m := Nat.lt_succ_iff.mp hlt
      have hm2 := ih hkm
      calc levelSet env a (m + 1) = expandSet env (levelSet env a m) :=
            levelSet_succ env a m
        _ = expandSet env (levelSet env a k) := by rw [hm2]
        _ = levelSet env a (k + 1) := (levelSet_succ env a k).symm
        _ = levelSet env a k := h
    · have : m + 1 = k := le_antisymm hge hm
      rw [this]

theorem levelSet_growth (env : Environment) (a : Coord) :
    ∀ n : Nat, n + 1 ≤ (levelSet env a n).card ∨
      ∃ k, k ≤ n ∧ levelSet env a (k + 1) = levelSet env a k := by
  intro n
  induction n with
  | zero =>
    left
    rw [levelSet, Function.iterate_zero, id_eq, Finset.card_singleton]
  | succ n ih =>
    rcases ih with hcard | ⟨k, hk, hstab⟩
    · by_cases heq : levelSet env a (n + 1) = levelSet env a n
      · exact Or.inr ⟨n, le_refl _ |>.trans (Nat.le_succ n), heq⟩
      · left
        have hsub : levelSet env a n ⊆ levelSet env a (n + 1) :=
          levelSet_mono_succ env a n
        have hlt : (levelSet env a n).card < (levelSet env a (n + 1)).card :=
          Finset.card_lt_card (lt_of_le_of_ne hsub (fun he => heq he.symm))
      
        omega
    · exact Or.inr ⟨k, hk.trans (Nat.le_succ n), hstab⟩

/-- Reachability is decided by `width * height + 1` expansion rounds. -/
theorem reachable_iff_levelSet (env : Environment) (a b : Coord) :
    Reachable env a b ↔ b ∈ levelSet env a (env.width * env.height + 1) := by
  set N := env.width * env.height + 1 with hN
  constructor
  · rintro ⟨p, hp⟩
    have hb : b ∈ levelSet env a p.length := mem_levelSet.mpr ⟨p, hp, le_refl _⟩
    rcases le_or_lt p.length N with hle | hgt
    · exact levelSet_mono hle hb
    · -- some level ≤ N already stabilised, because cardinalities are
      -- bounded by the cell count
      rcases levelSet_growth env a N with hcard | ⟨k, hk, hstab⟩
      · exfalso
        have h1 : (levelSet env a N).card ≤ (insert a (validCells env)).card :=
          Finset.card_le_card (levelSet_subset_validCells env a N)
        have h2 : (insert a (validCells env)).card ≤ (validCells env).card + 1 :=
          Finset.card_insert_le a _
        have h3 := validCells_card env
        omega
      · have hall := levelSet_stable hstab
        have h1 : levelSet env a p.length = levelSet env a k :=
          hall p.length (hk.trans (le_of_lt hgt))
        have h2 : levelSet env a N = levelSet env a k := hall N hk
        rw [h1] at hb
        rw [h2]
        exact hb
  · intro hb
    obtain ⟨p, hp, _⟩ := mem_levelSet.mp hb
    exact ⟨p, hp⟩

/-- Hop distances of reachable pairs are bounded by the cell count. -/
theorem hopDist_le_bound {env : Environment} {a b : Coord}
    (h : Reachable env a b) :
    hopDist env a b ≤ env.width * env.height + 1 := by
  have hb := (reachable_iff_levelSet env a b).mp h
  obtain ⟨p, hp, hlen⟩ := mem_levelSet.mp hb
  exact le_trans (hopDist_le hp) hlen

/-! ## Manhattan heuristic: consistency along walkable paths -/

theorem heuristic_triangle_step {u v g : Coord}
    (h : (v.1 - u.1).natAbs + (v.2 - u.2).natAbs = 1) :
    heuristic u g ≤ heuristic v g + 1 := by
  have t1 : (u.1 - g.1).natAbs ≤ (u.1 - v.1).natAbs + (v.1 - g.1).natAbs := by
    have he : u.1 - g.1 = (u.1 - v.1) + (v.1 - g.1) := by ring
    rw [he]
    exact Int.natAbs_add_le _ _
  have t2 : (u.2 - g.2).natAbs ≤ (u.2 - v.2).natAbs + (v.2 - g.2).natAbs := by
    have he : u.2 - g.2 = (u.2 - v.2) + (v.2 - g.2) := by ring
    rw [he]
    exact Int.natAbs_add_le _ _
  have c1 : (u.1 - v.1).natAbs = (v.1 - u.1).natAbs := by
    rw [← Int.natAbs_neg]
    congr 1
    ring
  have c2 : (u.2 - v.2).natAbs = (v.2 - u.2).natAbs := by
    rw [← Int.natAbs_neg]
    congr 1
    ring
  rw [heuristic, heuristic]
  omega

theorem heuristic_path_le {env : Environment} {m u g : Coord} {q : List Coord}
    (hq : isPath env m q u) : heuristic m g ≤ q.length + heuristic u g := by
  induction q generalizing m with
  | nil =>
    rw [isPath_nil.mp hq]
    simp
  | cons c q ih =>
    obtain ⟨hc, hq2⟩ := hq
    have hstep : heuristic m g ≤ heuristic c g + 1 :=
      heuristic_triangle_step (mem_get_neighbors_adjacent hc)
    have := ih hq2
    simp only [List.length_cons]
    omega

/-! ## Association list facts -/

theorem alookup_cons_self {β : Type} {k : Coord} {v : β}
    {cf : List (Coord × β)} : alookup ((k, v) :: cf) k = some v := by
  rw [alookup, if_pos rfl]

theorem alookup_cons_ne {β : Type} {k c : Coord} {v : β}
    {cf : List (Coord × β)} (h : k ≠ c) :
    alookup ((k, v) :: cf) c = alookup cf c := by
  rw [alookup, if_neg h]

theorem alookup_eq_none_iff {β : Type} (cf : List (Coord × β)) (c : Coord) :
    alookup cf c = none ↔ c ∉ cf.map Prod.fst := by
  induction cf with
  | nil => simp [alookup]
  | cons kv t ih =>
    obtain ⟨k, v⟩ := kv
    by_cases h : k = c
    · subst h
      simp [alookup_cons_self]
    · rw [alookup_cons_ne h, ih]
      simp only [List.map_cons, List.mem_cons]
      constructor
      · intro hn hc
        rcases hc with hc | hc
        · exact h hc.symm
        · exact hn hc
      · intro hn hc
        exact hn (Or.inr hc)

theorem alookup_isSome_mem {β : Type} {cf : List (Coord × β)} {c : Coord}
    {v : β} (h : alookup cf c = some v) : c ∈ cf.map Prod.fst := by
  by_contra hc
  rw [← alookup_eq_none_iff] at hc
  rw [h] at hc
  cases hc

theorem keys_length_le {β : Type} (cf : List (Coord × β))
    (hnd : (cf.map Prod.fst).Nodup) (S : Finset Coord)
    (hsub : ∀ k ∈ cf.map Prod.fst, k ∈ S) : cf.length ≤ S.card := by
  have h1 : (cf.map Prod.fst).length = cf.length := List.length_map _ _
  rw [← h1, ← List.toFinset_card_of_nodup hnd]
  refine Finset.card_le_card ?_
  intro k hk
  rw [List.mem_toFinset] at hk
  exact hsub k hk

/-! ## The chain of `came_from` links and `reconstruct_path` -/

/-- `ChainTo cf start n p`: following the `came_from` links from `n` back
to `start` visits exactly the cells of `p` (in start-to-`n` order,
excluding `start` itself), which is what `reconstruct_path` returns. -/
inductive ChainTo (cf : CameFrom) (start : Coord) : Coord → List Coord → Prop
  | base : ChainTo cf start start []
  | step {n u : Coord} {p : List Coord} (hne : n ≠ start)
      (hlink : alookup cf n = some (some u))
      (hprev : ChainTo cf start u p) : ChainTo cf start n (p ++ [n])

theorem reconstructAux_chain {cf : CameFrom} {start : Coord} :
    ∀ {n : Coord} {p : List Coord}, ChainTo cf start n p →
      ∀ (fuel : Nat) (acc : List Coord), p.length < fuel →
        reconstructAux cf start n fuel acc = some (p ++ acc.reverse) := by
  intro n p h
  induction h with
  | base =>
    intro fuel acc hfuel
    cases fuel with
    | zero => omega
    | succ f =>
      rw [reconstructAux, if_pos rfl]
      simp
  | step hne hlink hprev ih =>
    rename_i n u p
    intro fuel acc hfuel
    cases fuel with
    | zero => omega
    | succ f =>
      rw [reconstructAux, if_neg hne, hlink]
      have hlen : p.length < f := by
        rw [List.length_append, List.length_singleton] at hfuel
        omega
      show reconstructAux cf start u f (acc ++ [n])
        = some ((p ++ [n]) ++ acc.reverse)
      rw [ih f (acc ++ [n]) hlen]
      congr 1
      rw [List.reverse_append]
      simp

theorem reconstruct_path_chain {cf : CameFrom} {start goal : Coord}
    {p : List Coord} (h : ChainTo cf start goal p)
    (hlen : p.length ≤ cf.length) :
    reconstruct_path cf start goal = some p := by
  rw [reconstruct_path, reconstructAux_chain h (cf.length + 1) [] (by omega)]
  simp

/-- Extending the association list with a fresh key preserves chains. -/
theorem ChainTo_extend {cf : CameFrom} {start : Coord} {k : Coord}
    {v : Option Coord} (hk : alookup cf k = none) :
    ∀ {n : Coord} {p : List Coord}, ChainTo cf start n p →
      ChainTo ((k, v) :: cf) start n p := by
  intro n p h
  induction h with
  | base => exact ChainTo.base
  | step hne hlink hprev ih =>
    rename_i n u p
    refine ChainTo.step hne ?_ ih
    have hkn : k ≠ n := by
      intro he
      rw [he, hlink] at hk
      cases hk
    rw [alookup_cons_ne hkn]
    exact hlink

theorem alookup_isSome_of_mem {β : Type} {cf : List (Coord × β)} {c : Coord}
    (h : c ∈ cf.map Prod.fst) : ∃ v, alookup cf c = some v := by
  induction cf with
  | nil => simp at h
  | cons kv t ih =>
    obtain ⟨k, v⟩ := kv
    by_cases he : k = c
    · subst he
      exact ⟨v, alookup_cons_self⟩
    · rw [List.map_cons, List.mem_cons] at h
      rcases h with h | h
    
      · exact absurd h.symm he
      · rw [alookup_cons_ne he]
        exact ih h

theorem nodup_mem_length {p l : List Coord} (hnd : p.Nodup)
    (hsub : ∀ e ∈ p, e ∈ l) : p.length ≤ l.length := by
  rw [← List.toFinset_card_of_nodup hnd]
  calc p.toFinset.card ≤ l.toFinset.card := by
        refine Finset.card_le_card ?_
        intro e he
        rw [List.mem_toFinset] at he
        rw [List.mem_toFinset]
        exact hsub e he
    _ ≤ l.length := List.toFinset_card_le l

/-! ## BFS loop invariant (claims C1, C3, C10) -/

/-- The structural invariant of the `bfs` loop state: `Q` is the frontier,
`cf` the `came_from` map, `E` the explored set. -/
structure BfsCore (env : Environment) (start : Coord) (Q : List Coord)
    (cf : CameFrom) (E : Finset Coord) : Prop where
  keysNodup : (cf.map Prod.fst).Nodup
  keysSub : ∀ c ∈ cf.map Prod.fst, c ∈ insert start (validCells env)
  startKey : alookup cf start = some none
  valNone : ∀ n v, alookup cf n = some v → v = none → n = start
  link : ∀ n u, alookup cf n = some (some u) →
    n ∈ env.get_neighbors u.1 u.2 ∧ u ∈ cf.map Prod.fst ∧
      hopDist env start n = hopDist env start u + 1
  keysReach : ∀ c ∈ cf.map Prod.fst, Reachable env start c
  partition : ∀ n, n ∈ cf.map Prod.fst ↔ (n ∈ E ∨ n ∈ Q)
  nodupQ : Q.Nodup
  disj : ∀ n ∈ E, n ∉ Q
  closure : ∀ n ∈ E, ∀ v ∈ env.get_neighbors n.1 n.2, v ∈ cf.map Prod.fst

/-- The level structure of the BFS frontier: a block at depth `k` followed
by a block at depth `k + 1`, with everything explored at depth `≤ k`. -/
def BfsLevels (env : Environment) (start : Coord) (Q : List Coord)
    (E : Finset Coord) (k : Nat) : Prop :=
  ∃ A B, Q = A ++ B ∧ (∀ x ∈ A, hopDist env start x = k) ∧
    (∀ x ∈ B, hopDist env start x = k + 1) ∧
    (∀ e ∈ E, hopDist env start e ≤ k)

/-- Every `came_from` key carries a chain that is a shortest walkable path
from `start`, with controlled membership for the length bound. -/
theorem bfs_chain_aux (env : Environment) (start : Coord) (cf : CameFrom)
    (hstart : alookup cf start = some none)
    (hval : ∀ n v, alookup cf n = some v → v = none → n = start)
    (hlink : ∀ n u, alookup cf n = some (some u) →
      n ∈ env.get_neighbors u.1 u.2 ∧ u ∈ cf.map Prod.fst ∧
        hopDist env start n = hopDist env start u + 1) :
    ∀ d n, n ∈ cf.map Prod.fst → hopDist env start n = d →
      ∃ p, ChainTo cf start n p ∧ isPath env start p n ∧
        p.length = d ∧ (∀ e ∈ p, e ∈ cf.map Prod.fst ∧
          hopDist env start e ≤ d) ∧ p.Nodup ∧ start ∉ p := by
  intro d
  induction d using Nat.strong_induction_on with
  | _ d ih =>
    intro n hn hd
    by_cases hns : n = start
    · subst hns
      refine ⟨[], ChainTo.base, isPath_nil.mpr rfl, ?_, by simp, by simp, by simp⟩
      rw [← hd, hopDist_self]
      rfl
    · obtain ⟨v, hv⟩ := alookup_isSome_of_mem hn
      rcases v with _ | u
      · exact absurd (hval n none hv rfl) hns
      · obtain ⟨hnb, hu, hdn⟩ := hlink n u hv
        have hdu : hopDist env start u < d := by omega
        obtain ⟨p, hchain, hpath, hlen, hmem, hnd, hst⟩ :=
          ih (hopDist env start u) hdu u hu rfl
        refine ⟨p ++ [n], ChainTo.step hns hv hchain, isPath_snoc hpath hnb,
          ?_, ?_, ?_, ?_⟩
        · rw [List.length_append, List.length_singleton, hlen]
          omega
        · intro e he
          rw [List.mem_append, List.mem_singleton] at he
          rcases he with he | rfl
          · obtain ⟨h1, h2⟩ := hmem e he
            exact ⟨h1, by omega⟩
          · exact ⟨hn, by omega⟩
        · rw [List.nodup_append]
          refine ⟨hnd, by simp, ?_⟩
          intro e he he2
          rw [List.mem_singleton] at he2
          subst he2
          obtain ⟨_, h2⟩ := hmem e he
          omega
        · rw [List.mem_append, List.mem_singleton]
          rintro (hs | hs)
          · exact hst hs
          · exact hns hs.symm

/-- Packaged chain lemma: each key's `came_from` chain is a shortest path
of length within the fuel budget `reconstruct_path` allows. -/
theorem bfs_chain {env : Environment} {start : Coord} {Q : List Coord}
    {cf : CameFrom} {E : Finset Coord} (hc : BfsCore env start Q cf E) :
    ∀ n ∈ cf.map Prod.fst, ∃ p, ChainTo cf start n p ∧
      isPath env start p n ∧ p.length = hopDist env start n ∧
      p.length ≤ cf.length := by
  intro n hn
  obtain ⟨p, hchain, hpath, hlen, hmem, hnd, _⟩ :=
    bfs_chain_aux env start cf hc.startKey hc.valNone hc.link
      (hopDist env start n) n hn rfl
  refine ⟨p, hchain, hpath, hlen, ?_⟩
  calc p.length ≤ (cf.map Prod.fst).length :=
        nodup_mem_length hnd fun e he => (hmem e he).1
    _ = cf.length := List.length_map _ _

/-- At a BFS pop, every cell within the popped depth is already a key. -/
theorem bfs_closer {env : Environment} {start : Coord} {Q : List Coord}
    {cf : CameFrom} {E : Finset Coord} {k : Nat}
    (hstart : start ∈ cf.map Prod.fst)
    (hclosure : ∀ n ∈ E, ∀ v ∈ env.get_neighbors n.1 n.2, v ∈ cf.map Prod.fst)
    (hpartition : ∀ n, n ∈ cf.map Prod.fst ↔ (n ∈ E ∨ n ∈ Q))
    (hQk : ∀ x ∈ Q, k ≤ hopDist env start x) :
    ∀ d m, Reachable env start m → hopDist env start m = d → d ≤ k →
      m ∈ cf.map Prod.fst := by
  intro d
  induction d using Nat.strong_induction_on with
  | _ d ih =>
    intro m hreach hdm hk
    match d with
    | 0 =>
      have : m = start := by
        have := hopDist_eq_zero hreach hdm
        exact this.symm
      rw [this]
      exact hstart
    | j + 1 =>
      obtain ⟨w, hwr, hwd, hwm⟩ := hopDist_pred hreach hdm
      have hw : w ∈ cf.map Prod.fst :=
        ih j (by omega) w hwr hwd (by omega)
      rcases (hpartition w).mp hw with hwE | hwQ
      · exact hclosure w hwE m hwm
      · have := hQk w hwQ
        omega

/-- Normalising a pop from the two-block BFS frontier. -/
theorem levels_pop {env : Environment} {start u : Coord} {rest : List Coord}
    {E : Finset Coord} {k : Nat}
    (h : BfsLevels env start (u :: rest) E k) :
    ∃ k2, hopDist env start u = k2 ∧
      BfsLevels env start rest (insert u E) k2 ∧
      (∀ x ∈ u :: rest, k2 ≤ hopDist env start x) := by
  obtain ⟨A, B, hQ, hA, hB, hE⟩ := h
  cases A with
  | nil =>
    rw [List.nil_append] at hQ
    have hu : hopDist env start u = k + 1 := by
      refine hB u ?_
      rw [← hQ]
      exact List.mem_cons_self _ _
    refine ⟨k + 1, hu, ⟨rest, [], by simp, ?_, ?_, ?_⟩, ?_⟩
    · intro x hx
      refine hB x ?_
      rw [← hQ]
      exact List.mem_cons_of_mem u hx
    · intro x hx
      cases hx
    · intro e he
      rw [Finset.mem_insert] at he
      rcases he with rfl | he
      · omega
      · have := hE e he
        omega
    · intro x hx
      have hx2 : x ∈ B := by
        rw [← hQ]
        exact hx
      have := hB x hx2
      omega
  | cons a A2 =>
    rw [List.cons_append] at hQ
    injection hQ with hu hrest
    subst hu
    have hdu : hopDist env start u = k := hA u (List.mem_cons_self _ _)
    refine ⟨k, hdu, ⟨A2, B, hrest, ?_, hB, ?_⟩, ?_⟩
    · intro x hx
      exact hA x (List.mem_cons_of_mem u hx)
    · intro e he
      rw [Finset.mem_insert] at he
      rcases he with rfl | he
      · omega
      · exact hE e he
    · intro x hx
      rcases List.mem_cons.mp hx with rfl | hx
      · omega
      · rw [hrest] at hx
        rw [List.mem_append] at hx
        rcases hx with hx | hx
        · have := hA x (List.mem_cons_of_mem u hx)
          omega
        · have := hB x hx
          omega

/-- Mid-relaxation invariant of the BFS neighbour push. -/
structure PushInv (env : Environment) (start u : Coord) (k : Nat)
    (E2 : Finset Coord) (nbs fr : List Coord) (cf : CameFrom) : Prop where
  nbsSub : ∀ v ∈ nbs, v ∈ env.get_neighbors u.1 u.2
  keysNodup : (cf.map Prod.fst).Nodup
  keysSub : ∀ c ∈ cf.map Prod.fst, c ∈ insert start (validCells env)
  startKey : alookup cf start = some none
  valNone : ∀ n v, alookup cf n = some v → v = none → n = start
  link : ∀ n w, alookup cf n = some (some w) →
    n ∈ env.get_neighbors w.1 w.2 ∧ w ∈ cf.map Prod.fst ∧
      hopDist env start n = hopDist env start w + 1
  keysReach : ∀ c ∈ cf.map Prod.fst, Reachable env start c
  partition : ∀ n, n ∈ cf.map Prod.fst ↔ (n ∈ E2 ∨ n ∈ fr)
  nodupQ : fr.Nodup
  disj : ∀ n ∈ E2, n ∉ fr
  closureOld : ∀ n ∈ E2, n ≠ u →
    ∀ v ∈ env.get_neighbors n.1 n.2, v ∈ cf.map Prod.fst
  closureU : ∀ v ∈ env.get_neighbors u.1 u.2, v ∈ nbs ∨ v ∈ cf.map Prod.fst
  levels : ∃ A B, fr = A ++ B ∧ (∀ x ∈ A, hopDist env start x = k) ∧
    (∀ x ∈ B, hopDist env start x = k + 1)
  elevels : ∀ e ∈ E2, hopDist env start e ≤ k
  closer : ∀ m, Reachable env start m → hopDist env start m ≤ k →
    m ∈ cf.map Prod.fst
  ureach : Reachable env start u
  udist : hopDist env start u = k
  uE : u ∈ E2

theorem bfsPush_spec (env : Environment) (start u : Coord) (k : Nat)
    (E2 : Finset Coord) :
    ∀ (nbs fr : List Coord) (cf : CameFrom),
      PushInv env start u k E2 nbs fr cf →
      PushInv env start u k E2 [] (bfsPush u E2 nbs fr cf).1
          (bfsPush u E2 nbs fr cf).2 ∧
        cf.length ≤ (bfsPush u E2 nbs fr cf).2.length ∧
        (bfsPush u E2 nbs fr cf).1.length + cf.length
          ≤ fr.length + (bfsPush u E2 nbs fr cf).2.length ∧
        (∀ c ∈ cf.map Prod.fst, c ∈ (bfsPush u E2 nbs fr cf).2.map Prod.fst) := by
  intro nbs
  induction nbs with
  | nil =>
    intro fr cf h
    rw [bfsPush]
    exact ⟨h, le_refl _, by simp, fun c hc => hc⟩
  | cons nb nbs ih =>
    intro fr cf h
    rw [bfsPush]
    by_cases hg : alookup cf nb = none ∧ nb ∉ E2
    · rw [if_pos hg]
      obtain ⟨hlook, hnE⟩ := hg
      have hnbnb : nb ∈ env.get_neighbors u.1 u.2 :=
        h.nbsSub nb (List.mem_cons_self _ _)
      have hnkey : nb ∉ cf.map Prod.fst := (alookup_eq_none_iff cf nb).mp hlook
      have hnreach : Reachable env start nb := reachable_step h.ureach hnbnb
      have hnd : hopDist env start nb = k + 1 := by
        have hle : hopDist env start nb ≤ k + 1 := by
          have := hopDist_step_le h.ureach hnbnb
          rw [h.udist] at this
          exact this
        have hge : ¬ hopDist env start nb ≤ k := by
          intro hle2
          exact hnkey (h.closer nb hnreach hle2)
        omega
      have hstartmem : start ∈ cf.map Prod.fst :=
        alookup_isSome_mem h.startKey
      have hnbstart : nb ≠ start := fun he => hnkey (he ▸ hstartmem)
      have hfr : nb ∉ fr := fun hf => hnkey ((h.partition nb).mpr (Or.inr hf))
      have hukey : u ∈ cf.map Prod.fst := (h.partition u).mpr (Or.inl h.uE)
      have hinv2 : PushInv env start u k E2 nbs (fr ++ [nb])
          ((nb, some u) :: cf) := by
        refine ⟨?_, ?_, ?_, ?_, ?_, ?_, ?_, ?_, ?_, ?_, ?_, ?_, ?_, ?_, ?_,
          h.ureach, h.udist, h.uE⟩
        · intro v hv
          exact h.nbsSub v (List.mem_cons_of_mem nb hv)
        · rw [List.map_cons]
          exact List.Nodup.cons hnkey h.keysNodup
        · intro c hc
          rw [List.map_cons, List.mem_cons] at hc
          rcases hc with rfl | hc
          · exact Finset.mem_insert_of_mem
              (mem_validCells_of_walkable (mem_get_neighbors_walkable hnbnb))
          · exact h.keysSub c hc
        · rw [alookup_cons_ne hnbstart]
          exact h.startKey
        · intro n v hv hvn
          by_cases he : nb = n
          · subst he
            rw [alookup_cons_self] at hv
            cases hv
            cases hvn
          · rw [alookup_cons_ne he] at hv
            exact h.valNone n v hv hvn
        · intro n w hv
          by_cases he : nb = n
          · subst he
            rw [alookup_cons_self] at hv
            cases hv
            refine ⟨hnbnb, ?_, ?_⟩
            · rw [List.map_cons]
              exact List.mem_cons_of_mem _ hukey
            · rw [hnd, h.udist]
          · rw [alookup_cons_ne he] at hv
            obtain ⟨h1, h2, h3⟩ := h.link n w hv
            exact ⟨h1, by rw [List.map_cons]; exact List.mem_cons_of_mem _ h2, h3⟩
        · intro c hc
          rw [List.map_cons, List.mem_cons] at hc
          rcases hc with rfl | hc
          · exact hnreach
          · exact h.keysReach c hc
        · intro n
          rw [List.map_cons, List.mem_cons]
          constructor
          · rintro (rfl | hn)
            · exact Or.inr (by rw [List.mem_append, List.mem_singleton]; right; rfl)
            · rcases (h.partition n).mp hn with hE | hQ
              · exact Or.inl hE
              · exact Or.inr (by rw [List.mem_append]; exact Or.inl hQ)
          · rintro (hE | hQ)
            · exact Or.inr ((h.partition n).mpr (Or.inl hE))
            · rw [List.mem_append, List.mem_singleton] at hQ
              rcases hQ with hQ | rfl
              · exact Or.inr ((h.partition n).mpr (Or.inr hQ))
              · exact Or.inl rfl
        · rw [List.nodup_append]
          exact ⟨h.nodupQ, by simp, fun e he he2 => by
            rw [List.mem_singleton] at he2
            subst he2
            exact hfr he⟩
        · intro n hn
          rw [List.mem_append, List.mem_singleton]
          rintro (hf | rfl)
          · exact h.disj n hn hf
          · exact hnE hn
        · intro n hn hne v hv
          rw [List.map_cons]
          exact List.mem_cons_of_mem _ (h.closureOld n hn hne v hv)
        · intro v hv
          rcases h.closureU v hv with hvn | hvk
          · rw [List.mem_cons] at hvn
            rcases hvn with rfl | hvn
            · right
              rw [List.map_cons]
              exact List.mem_cons_self _ _
            · exact Or.inl hvn
          · right
            rw [List.map_cons]
            exact List.mem_cons_of_mem _ hvk
        · obtain ⟨A, B, hfr2, hA, hB⟩ := h.levels
          refine ⟨A, B ++ [nb], by rw [hfr2, List.append_assoc], hA, ?_⟩
          intro x hx
          rw [List.mem_append, List.mem_singleton] at hx
          rcases hx with hx | rfl
          · exact hB x hx
          · exact hnd
        · exact h.elevels
        · intro m hm hmd
          rw [List.map_cons]
          exact List.mem_cons_of_mem _ (h.closer m hm hmd)
      obtain ⟨hfin, hl1, hl2, hmono⟩ := ih (fr ++ [nb]) ((nb, some u) :: cf) hinv2
      refine ⟨hfin, ?_, ?_, ?_⟩
      · calc cf.length ≤ ((nb, some u) :: cf).length := by simp
          _ ≤ _ := hl1
      · have : (fr ++ [nb]).length = fr.length + 1 := by simp
        rw [this] at hl2
        simp only [List.length_cons] at hl2
        omega
      · intro c hc
        refine hmono c ?_
        rw [List.map_cons]
        exact List.mem_cons_of_mem _ hc
    · rw [if_neg hg]
      have hstep : PushInv env start u k E2 nbs fr cf := by
        refine ⟨?_, h.keysNodup, h.keysSub, h.startKey, h.valNone, h.link,
          h.keysReach, h.partition, h.nodupQ, h.disj, h.closureOld, ?_,
          h.levels, h.elevels, h.closer, h.ureach, h.udist, h.uE⟩
        · intro v hv
          exact h.nbsSub v (List.mem_cons_of_mem nb hv)
        · intro v hv
          rcases h.closureU v hv with hvn | hvk
          · rw [List.mem_cons] at hvn
            rcases hvn with rfl | hvn
            · right
              rcases Decidable.not_and_iff_or_not.mp hg with hg1 | hg2
              · rcases Option.ne_none_iff_exists.mp hg1 with ⟨w, hw⟩
                exact alookup_isSome_mem hw.symm
              · have hvE : v ∈ E2 := Decidable.not_not.mp hg2
                exact (h.partition v).mpr (Or.inl hvE)
            · exact Or.inl hvn
          · exact Or.inr hvk
      exact ih fr cf hstep

/-- If the frontier is empty, the explored set is exactly the reachable
component. -/
theorem explored_eq_component {env : Environment} {start : Coord}
    {cf : CameFrom} {E : Finset Coord}
    (hkeysE : ∀ n, n ∈ cf.map Prod.fst ↔ n ∈ E)
    (hstartk : start ∈ cf.map Prod.fst)
    (hreach : ∀ c ∈ cf.map Prod.fst, Reachable env start c)
    (hclosure : ∀ n ∈ E, ∀ v ∈ env.get_neighbors n.1 n.2,
      v ∈ cf.map Prod.fst) :
    ∀ c, c ∈ E ↔ Reachable env start c := by
  have hstartE : start ∈ E := (hkeysE start).mp hstartk
  have hclosed : ∀ (p : List Coord) (a : Coord), a ∈ E →
      ∀ c, isPath env a p c → c ∈ E := by
    intro p
    induction p with
    | nil =>
      intro a ha c hpath
      rw [isPath_nil] at hpath
      rw [← hpath]
      exact ha
    | cons e p ih =>
      intro a ha c hpath
      obtain ⟨he, hp2⟩ := hpath
      have heE : e ∈ E := (hkeysE e).mp (hclosure a ha e he)
      exact ih e heE c hp2
  intro c
  constructor
  · intro hcE
    exact hreach c ((hkeysE c).mpr hcE)
  · rintro ⟨p, hp⟩
    exact hclosed p start hstartE c hp

/-- Master specification of the `bfs` loop: under the invariant and with
sufficient fuel the loop either finds the goal with a shortest path, or
exhausts the frontier having explored exactly the reachable component,
meanwhile recording only duplicate-free frontier snapshots. -/
theorem bfsLoop_spec (env : Environment) (start goal : Coord) :
    ∀ (fuel : Nat) (Q : List Coord) (cf : CameFrom) (E : Finset Coord)
      (res : SearchResult) (k : Nat),
      BfsCore env start Q cf E →
      BfsLevels env start Q E k →
      goal ∉ E →
      res.found = false →
      res.nodes_expanded = E.card →
      Q.length + 2 * ((env.width * env.height + 1) - cf.length) < fuel →
      ((bfsLoop env start goal fuel Q cf E res).found = true →
        Reachable env start goal ∧
        isPath env start (bfsLoop env start goal fuel Q cf E res).path goal ∧
        (bfsLoop env start goal fuel Q cf E res).path.length
          = hopDist env start goal ∧
        (bfsLoop env start goal fuel Q cf E res).path_cost
          = (bfsLoop env start goal fuel Q cf E res).path.length) ∧
      ((bfsLoop env start goal fuel Q cf E res).found = false →
        ¬ Reachable env start goal ∧
        (∀ c, c ∈ (bfsLoop env start goal fuel Q cf E res).explored ↔
          Reachable env start c) ∧
        (bfsLoop env start goal fuel Q cf E res).nodes_expanded
          = (bfsLoop env start goal fuel Q cf E res).explored.card) ∧
      ((∀ f ∈ res.frontier_history, f.Nodup) →
        ∀ f ∈ (bfsLoop env start goal fuel Q cf E res).frontier_history,
          f.Nodup) := by
  intro fuel
  induction fuel with
  | zero =>
    intro Q cf E res k _ _ _ _ _ hfuel
    omega
  | succ f ih =>
    intro Q cf E res k hc hlev hgE hfound hnodes hfuel
    cases Q with
    | nil =>
      rw [bfsLoop]
      have hcomp := explored_eq_component
        (fun n => by rw [hc.partition n]; simp)
        (alookup_isSome_mem hc.startKey) hc.keysReach hc.closure
      refine ⟨?_, ?_, ?_⟩
      · intro habs
        simp only at habs
        rw [hfound] at habs
        cases habs
      · intro _
        refine ⟨?_, hcomp, hnodes⟩
        intro hr
        exact hgE ((hcomp goal).mpr hr)
      · intro hp f2 hf2
        exact hp f2 hf2
    | cons u rest =>
      rw [bfsLoop]
      simp only
      have hcap : cf.length ≤ env.width * env.height + 1 := by
        have h1 := keys_length_le cf hc.keysNodup
          (insert start (validCells env)) hc.keysSub
        have h2 : (insert start (validCells env)).card
            ≤ (validCells env).card + 1 := Finset.card_insert_le _ _
        have h3 := validCells_card env
        omega
      have huQ : u ∈ u :: rest := List.mem_cons_self _ _
      have hukey : u ∈ cf.map Prod.fst := (hc.partition u).mpr (Or.inr huQ)
      have hureach : Reachable env start u := hc.keysReach u hukey
      have huE : u ∉ E := fun hE2 => hc.disj u hE2 huQ
      have hcard2 : (insert u E).card = E.card + 1 :=
        Finset.card_insert_of_not_mem huE
      obtain ⟨k2, hdu, hlev2, hQge⟩ := levels_pop hlev
      by_cases hgoal : u = goal
      · subst hgoal
        rw [if_pos rfl]
        obtain ⟨p, hchain, hpath, hplen, hpbound⟩ := bfs_chain hc u hukey
        have hrec : reconstruct_path cf start u = some p :=
          reconstruct_path_chain hchain hpbound
        refine ⟨?_, ?_, ?_⟩
        · intro _
          simp only [hrec, Option.getD_some]
          exact ⟨hureach, hpath, hplen, trivial⟩
        · intro habs
          simp only at habs
          cases habs
        · intro hp f2 hf2
          simp only at hf2
          rw [List.mem_append] at hf2
          rcases hf2 with hf2 | hf2
          · exact hp f2 hf2
          · rw [List.mem_singleton] at hf2
            subst hf2
            exact hc.nodupQ
      · rw [if_neg hgoal]
        have hcloser : ∀ m, Reachable env start m →
            hopDist env start m ≤ k2 → m ∈ cf.map Prod.fst := by
          intro m hm hmd
          exact bfs_closer (alookup_isSome_mem hc.startKey) hc.closure
            hc.partition hQge (hopDist env start m) m hm rfl hmd
        obtain ⟨A2, B2, hrest, hA2, hB2, hE2lev⟩ := hlev2
        have hpinv : PushInv env start u k2 (insert u E)
            (env.get_neighbors u.1 u.2) rest cf := by
          refine ⟨fun v hv => hv, hc.keysNodup, hc.keysSub, hc.startKey,
            hc.valNone, hc.link, hc.keysReach, ?_, ?_, ?_, ?_, ?_,
            ⟨A2, B2, hrest, hA2, hB2⟩, hE2lev, hcloser, hureach, hdu,
            Finset.mem_insert_self u E⟩
          · intro n
            rw [hc.partition n, Finset.mem_insert, List.mem_cons]
            constructor
            · rintro (hn | (rfl | hn))
              · exact Or.inl (Or.inr hn)
              · exact Or.inl (Or.inl rfl)
              · exact Or.inr hn
            · rintro ((rfl | hn) | hn)
              · exact Or.inr (Or.inl rfl)
              · exact Or.inl hn
              · exact Or.inr (Or.inr hn)
          · exact (List.nodup_cons.mp hc.nodupQ).2
          · intro n hn
            rw [Finset.mem_insert] at hn
            rcases hn with rfl | hn
            · exact (List.nodup_cons.mp hc.nodupQ).1
            · intro hf
              exact hc.disj n hn (List.mem_cons_of_mem u hf)
          · intro n hn hne v hv
            rw [Finset.mem_insert] at hn
            rcases hn with rfl | hn
            · exact absurd rfl hne
            · exact hc.closure n hn v hv
          · intro v hv
            exact Or.inl hv
        obtain ⟨hpfin, hlen1, hlen2, hkeysmono⟩ :=
          bfsPush_spec env start u k2 (insert u E)
            (env.get_neighbors u.1 u.2) rest cf hpinv
        set fr2 := (bfsPush u (insert u E) (env.get_neighbors u.1 u.2) rest cf).1
        set cf2 := (bfsPush u (insert u E) (env.get_neighbors u.1 u.2) rest cf).2
        have hcore2 : BfsCore env start fr2 cf2 (insert u E) := by
          refine ⟨hpfin.keysNodup, hpfin.keysSub, hpfin.startKey,
            hpfin.valNone, hpfin.link, hpfin.keysReach, hpfin.partition,
            hpfin.nodupQ, hpfin.disj, ?_⟩
          intro n hn v hv
          by_cases hne : n = u
          · subst hne
            rcases hpfin.closureU v hv with hvn | hvk
            · cases hvn
            · exact hvk
          · exact hpfin.closureOld n hn hne v hv
        have hlev3 : BfsLevels env start fr2 (insert u E) k2 := by
          obtain ⟨A3, B3, h1, h2, h3⟩ := hpfin.levels
          exact ⟨A3, B3, h1, h2, h3, hpfin.elevels⟩
        have hcap2 : cf2.length ≤ env.width * env.height + 1 := by
          have h2 : (insert start (validCells env)).card
              ≤ (validCells env).card + 1 := Finset.card_insert_le _ _
          have h3 := validCells_card env
          have h4 := keys_length_le cf2 hpfin.keysNodup
            (insert start (validCells env)) hpfin.keysSub
          omega
        have hfuel2 : fr2.length +
            2 * ((env.width * env.height + 1) - cf2.length) < f := by
          simp only [List.length_cons] at hfuel
          omega
        have hgE2 : goal ∉ insert u E := by
          rw [Finset.mem_insert]
          rintro (rfl | hgoal2)
          · exact hgoal rfl
          · exact hgE hgoal2
        have := ih fr2 cf2 (insert u E)
          { res with
              frontier_history := res.frontier_history ++ [u :: rest],
              nodes_expanded := res.nodes_expanded + 1 }
          k2 hcore2 hlev3 hgE2 hfound (by simp [hnodes, hcard2]) hfuel2
        refine ⟨this.1, this.2.1, ?_⟩
        intro hp
        refine this.2.2 ?_
        intro f2 hf2
        simp only at hf2
        rw [List.mem_append] at hf2
        rcases hf2 with hf2 | hf2
        · exact hp f2 hf2
        · rw [List.mem_singleton] at hf2
          subst hf2
          exact hc.nodupQ

theorem bfs_initial_core (env : Environment) (start : Coord) :
    BfsCore env start [start] [(start, none)] ∅ := by
  refine ⟨?_, ?_, ?_, ?_, ?_, ?_, ?_, ?_, ?_, ?_⟩
  · simp
  · intro c hc
    simp only [List.map_cons, List.map_nil, List.mem_singleton] at hc
    rw [hc]
    exact Finset.mem_insert_self _ _
  · exact alookup_cons_self
  · intro n v hv _
    by_cases h : start = n
    · exact h.symm
    · rw [alookup_cons_ne h] at hv
      cases hv
  · intro n w hv
    by_cases h : start = n
    · subst h
      rw [alookup_cons_self] at hv
      cases hv
    · rw [alookup_cons_ne h] at hv
      cases hv
  · intro c hc
    simp only [List.map_cons, List.map_nil, List.mem_singleton] at hc
    rw [hc]
    exact reachable_refl env start
  · intro n
    simp
  · simp
  · simp
  · simp

theorem bfs_initial_levels (env : Environment) (start : Coord) :
    BfsLevels env start [start] ∅ 0 := by
  refine ⟨[start], [], by simp, ?_, by simp, by simp⟩
  intro x hx
  rw [List.mem_singleton] at hx
  rw [hx]
  exact hopDist_self env start

/-- Full correctness of `bfs` for distinct endpoints. -/
theorem bfs_spec (env : Environment) (start goal : Coord)
    (hne : start ≠ goal) :
    ((bfs env start goal).found = true →
      Reachable env start goal ∧
      isPath env start (bfs env start goal).path goal ∧
      (bfs env start goal).path.length = hopDist env start goal ∧
      (bfs env start goal).path_cost = (bfs env start goal).path.length) ∧
    ((bfs env start goal).found = false →
      ¬ Reachable env start goal ∧
      (∀ c, c ∈ (bfs env start goal).explored ↔ Reachable env start c) ∧
      (bfs env start goal).nodes_expanded = (bfs env start goal).explored.card) ∧
    (∀ f ∈ (bfs env start goal).frontier_history, f.Nodup) := by
  have h := bfsLoop_spec env start goal (searchFuel env) [start]
    [(start, none)] ∅ {} 0 (bfs_initial_core env start)
    (bfs_initial_levels env start) (Finset.not_mem_empty goal) rfl
    (by simp) (by simp [searchFuel]; omega)
  rw [bfs, if_neg hne]
  exact ⟨h.1, h.2.1, h.2.2 (by simp)⟩

/-- Claim C1: whenever `bfs` reports success, its path is a walkable path
from start to goal whose length (and `path_cost`) is the minimum hop-count
distance over walkable cells. -/
theorem claim_C1 (env : Environment) (start goal : Coord)
    (h : (bfs env start goal).found = true) :
    Reachable env start goal ∧
    isPath env start (bfs env start goal).path goal ∧
    (bfs env start goal).path.length = hopDist env start goal ∧
    (bfs env start goal).path_cost = hopDist env start goal := by
  by_cases hne : start = goal
  · subst hne
    have hb : bfs env start start = { found := true } := by
      rw [bfs, if_pos rfl]
    rw [hb]
    exact ⟨reachable_refl env start, isPath_nil.mpr rfl,
      by simp [hopDist_self], by simp [hopDist_self]⟩
  · obtain ⟨hr, hp, hl, hc⟩ := (bfs_spec env start goal hne).1 h
    exact ⟨hr, hp, hl, by rw [hc, hl]⟩

/-- 2×1 all-clean test world. -/
def testEnvF : Environment :=
  { width := 2, height := 1, grid := [[0, 0]], robot_pos := (0, 0),
    total_dirt := 0, cleaned_dirt := 0 }

theorem claim_C1_witness :
    Reachable testEnvF (0, 0) (1, 0) ∧
      (bfs testEnvF (0, 0) (1, 0)).path.length = hopDist testEnvF (0, 0) (1, 0) :=
  have h := claim_C1 testEnvF (0, 0) (1, 0) (by decide)
  ⟨h.1, h.2.2.1⟩

/-! ## DFS loop invariant (claims C3, C10) -/

/-- Structural invariant of the `dfs` loop state (`S` is the stack, kept
top-first). -/
structure DfsCore (env : Environment) (start : Coord) (S : List Coord)
    (cf : CameFrom) (E : Finset Coord) : Prop where
  keysNodup : (cf.map Prod.fst).Nodup
  keysSub : ∀ c ∈ cf.map Prod.fst, c ∈ insert start (validCells env)
  startMem : start ∈ cf.map Prod.fst
  keysReach : ∀ c ∈ cf.map Prod.fst, Reachable env start c
  partition : ∀ n, n ∈ cf.map Prod.fst ↔ (n ∈ E ∨ n ∈ S)
  nodupS : S.Nodup
  disj : ∀ n ∈ E, n ∉ S
  closure : ∀ n ∈ E, ∀ v ∈ env.get_neighbors n.1 n.2, v ∈ cf.map Prod.fst

/-- Mid-relaxation invariant of the DFS neighbour push. -/
structure DfsPushInv (env : Environment) (start u : Coord)
    (E2 : Finset Coord) (nbs fr : List Coord) (cf : CameFrom) : Prop where
  nbsSub : ∀ v ∈ nbs, v ∈ env.get_neighbors u.1 u.2
  keysNodup : (cf.map Prod.fst).Nodup
  keysSub : ∀ c ∈ cf.map Prod.fst, c ∈ insert start (validCells env)
  startMem : start ∈ cf.map Prod.fst
  keysReach : ∀ c ∈ cf.map Prod.fst, Reachable env start c
  partition : ∀ n, n ∈ cf.map Prod.fst ↔ (n ∈ E2 ∨ n ∈ fr)
  nodupS : fr.Nodup
  disj : ∀ n ∈ E2, n ∉ fr
  closureOld : ∀ n ∈ E2, n ≠ u →
    ∀ v ∈ env.get_neighbors n.1 n.2, v ∈ cf.map Prod.fst
  closureU : ∀ v ∈ env.get_neighbors u.1 u.2, v ∈ nbs ∨ v ∈ cf.map Prod.fst
  ureach : Reachable env start u
  uE : u ∈ E2

theorem dfsPush_spec (env : Environment) (start u : Coord)
    (E2 : Finset Coord) :
    ∀ (nbs fr : List Coord) (cf : CameFrom),
      DfsPushInv env start u E2 nbs fr cf →
      DfsPushInv env start u E2 [] (dfsPush u E2 nbs fr cf).1
          (dfsPush u E2 nbs fr cf).2 ∧
        cf.length ≤ (dfsPush u E2 nbs fr cf).2.length ∧
        (dfsPush u E2 nbs fr cf).1.length + cf.length
          ≤ fr.length + (dfsPush u E2 nbs fr cf).2.length := by
  intro nbs
  induction nbs with
  | nil =>
    intro fr cf h
    rw [dfsPush]
    exact ⟨h, le_refl _, by simp⟩
  | cons nb nbs ih =>
    intro fr cf h
    rw [dfsPush]
    by_cases hg : alookup cf nb = none ∧ nb ∉ E2
    · rw [if_pos hg]
      obtain ⟨hlook, hnE⟩ := hg
      have hnbnb : nb ∈ env.get_neighbors u.1 u.2 :=
        h.nbsSub nb (List.mem_cons_self _ _)
      have hnkey : nb ∉ cf.map Prod.fst := (alookup_eq_none_iff cf nb).mp hlook
      have hnreach : Reachable env start nb := reachable_step h.ureach hnbnb
      have hfr : nb ∉ fr := fun hf => hnkey ((h.partition nb).mpr (Or.inr hf))
      have hinv2 : DfsPushInv env start u E2 nbs (nb :: fr)
          ((nb, some u) :: cf) := by
        refine ⟨?_, ?_, ?_, ?_, ?_, ?_, ?_, ?_, ?_, ?_, h.ureach, h.uE⟩
        · intro v hv
          exact h.nbsSub v (List.mem_cons_of_mem nb hv)
        · rw [List.map_cons]
          exact List.Nodup.cons hnkey h.keysNodup
        · intro c hc
          rw [List.map_cons, List.mem_cons] at hc
          rcases hc with rfl | hc
          · exact Finset.mem_insert_of_mem
              (mem_validCells_of_walkable (mem_get_neighbors_walkable hnbnb))
          · exact h.keysSub c hc
        · rw [List.map_cons]
          exact List.mem_cons_of_mem _ h.startMem
        · intro c hc
          rw [List.map_cons, List.mem_cons] at hc
          rcases hc with rfl | hc
          · exact hnreach
          · exact h.keysReach c hc
        · intro n
          rw [List.map_cons, List.mem_cons, List.mem_cons]
          constructor
          · rintro (rfl | hn)
            · exact Or.inr (Or.inl rfl)
            · rcases (h.partition n).mp hn with hE | hS
              · exact Or.inl hE
              · exact Or.inr (Or.inr hS)
          · rintro (hE | (rfl | hS))
            · exact Or.inr ((h.partition n).mpr (Or.inl hE))
            · exact Or.inl rfl
            · exact Or.inr ((h.partition n).mpr (Or.inr hS))
        · exact List.Nodup.cons hfr h.nodupS
        · intro n hn
          rw [List.mem_cons]
          rintro (rfl | hS)
          · exact hnE hn
          · exact h.disj n hn hS
        · intro n hn hne v hv
          rw [List.map_cons]
          exact List.mem_cons_of_mem _ (h.closureOld n hn hne v hv)
        · intro v hv
          rcases h.closureU v hv with hvn | hvk
          · rw [List.mem_cons] at hvn
            rcases hvn with rfl | hvn
            · right
              rw [List.map_cons]
              exact List.mem_cons_self _ _
            · exact Or.inl hvn
          · right
            rw [List.map_cons]
            exact List.mem_cons_of_mem _ hvk
      obtain ⟨hfin, hl1, hl2⟩ := ih (nb :: fr) ((nb, some u) :: cf) hinv2
      refine ⟨hfin, ?_, ?_⟩
      · calc cf.length ≤ ((nb, some u) :: cf).length := by simp
          _ ≤ _ := hl1
      · simp only [List.length_cons] at hl2
        omega
    · rw [if_neg hg]
      have hstep : DfsPushInv env start u E2 nbs fr cf := by
        refine ⟨?_, h.keysNodup, h.keysSub, h.startMem, h.keysReach,
          h.partition, h.nodupS, h.disj, h.closureOld, ?_, h.ureach, h.uE⟩
        · intro v hv
          exact h.nbsSub v (List.mem_cons_of_mem nb hv)
        · intro v hv
          rcases h.closureU v hv with hvn | hvk
          · rw [List.mem_cons] at hvn
            rcases hvn with rfl | hvn
            · right
              rcases Decidable.not_and_iff_or_not.mp hg with hg1 | hg2
              · rcases Option.ne_none_iff_exists.mp hg1 with ⟨w, hw⟩
                exact alookup_isSome_mem hw.symm
              · have hvE : v ∈ E2 := Decidable.not_not.mp hg2
                exact (h.partition v).mpr (Or.inl hvE)
            · exact Or.inl hvn
          · exact Or.inr hvk
      exact ih fr cf hstep

/-- Master specification of the `dfs` loop: the stale-entry skip branch is
never taken (so the loop agrees with the skip-free variant), frontier
snapshots are duplicate-free, success implies reachability, and frontier
exhaustion means the explored set is exactly the reachable component. -/
theorem dfsLoop_spec (env : Environment) (start goal : Coord) :
    ∀ (fuel : Nat) (S : List Coord) (cf : CameFrom) (E : Finset Coord)
      (res : SearchResult),
      DfsCore env start S cf E →
      goal ∉ E →
      res.found = false →
      res.nodes_expanded = E.card →
      S.length + 2 * ((env.width * env.height + 1) - cf.length) < fuel →
      dfsLoop env start goal fuel S cf E res
          = dfsLoopNoSkip env start goal fuel S cf E res ∧
      ((dfsLoop env start goal fuel S cf E res).found = true →
        Reachable env start goal) ∧
      ((dfsLoop env start goal fuel S cf E res).found = false →
        ¬ Reachable env start goal ∧
        (∀ c, c ∈ (dfsLoop env start goal fuel S cf E res).explored ↔
          Reachable env start c) ∧
        (dfsLoop env start goal fuel S cf E res).nodes_expanded
          = (dfsLoop env start goal fuel S cf E res).explored.card) ∧
      ((∀ f ∈ res.frontier_history, f.Nodup) →
        ∀ f ∈ (dfsLoop env start goal fuel S cf E res).frontier_history,
          f.Nodup) := by
  intro fuel
  induction fuel with
  | zero =>
    intro S cf E res _ _ _ _ hfuel
    omega
  | succ f ih =>
    intro S cf E res hc hgE hfound hnodes hfuel
    cases S with
    | nil =>
      rw [dfsLoop, dfsLoopNoSkip]
      have hcomp := explored_eq_component
        (fun n => by rw [hc.partition n]; simp)
        hc.startMem hc.keysReach hc.closure
      refine ⟨rfl, ?_, ?_, ?_⟩
      · intro habs
        simp only at habs
        rw [hfound] at habs
        cases habs
      · intro _
        refine ⟨?_, hcomp, hnodes⟩
        intro hr
        exact hgE ((hcomp goal).mpr hr)
      · intro hp f2 hf2
        exact hp f2 hf2
    | cons u rest =>
      rw [dfsLoop, dfsLoopNoSkip]
      simp only
      have hcap : cf.length ≤ env.width * env.height + 1 := by
        have h1 := keys_length_le cf hc.keysNodup
          (insert start (validCells env)) hc.keysSub
        have h2 : (insert start (validCells env)).card
            ≤ (validCells env).card + 1 := Finset.card_insert_le _ _
        have h3 := validCells_card env
        omega
      have huQ : u ∈ u :: rest := List.mem_cons_self _ _
      have hukey : u ∈ cf.map Prod.fst := (hc.partition u).mpr (Or.inr huQ)
      have hureach : Reachable env start u := hc.keysReach u hukey
      have huE : u ∉ E := fun hE2 => hc.disj u hE2 huQ
      rw [if_neg huE]
      have hcard2 : (insert u E).card = E.card + 1 :=
        Finset.card_insert_of_not_mem huE
      by_cases hgoal : u = goal
      · subst hgoal
        rw [if_pos rfl, if_pos rfl]
        refine ⟨rfl, ?_, ?_, ?_⟩
        · intro _
          exact hureach
        · intro habs
          simp only at habs
          cases habs
        · intro hp f2 hf2
          simp only at hf2
          rw [List.mem_append] at hf2
          rcases hf2 with hf2 | hf2
          · exact hp f2 hf2
          · rw [List.mem_singleton] at hf2
            subst hf2
            exact hc.nodupS
      · rw [if_neg hgoal, if_neg hgoal]
        have hpinv : DfsPushInv env start u (insert u E)
            (env.get_neighbors u.1 u.2) rest cf := by
          refine ⟨fun v hv => hv, hc.keysNodup, hc.keysSub, hc.startMem,
            hc.keysReach, ?_, ?_, ?_, ?_, ?_, hureach,
            Finset.mem_insert_self u E⟩
          · intro n
            rw [hc.partition n, Finset.mem_insert, List.mem_cons]
            constructor
            · rintro (hn | (rfl | hn))
              · exact Or.inl (Or.inr hn)
              · exact Or.inl (Or.inl rfl)
              · exact Or.inr hn
            · rintro ((rfl | hn) | hn)
              · exact Or.inr (Or.inl rfl)
              · exact Or.inl hn
              · exact Or.inr (Or.inr hn)
          · exact (List.nodup_cons.mp hc.nodupS).2
          · intro n hn
            rw [Finset.mem_insert] at hn
            rcases hn with rfl | hn
            · exact (List.nodup_cons.mp hc.nodupS).1
            · intro hf
              exact hc.disj n hn (List.mem_cons_of_mem u hf)
          · intro n hn hne v hv
            rw [Finset.mem_insert] at hn
            rcases hn with rfl | hn
            · exact absurd rfl hne
            · exact hc.closure n hn v hv
          · intro v hv
            exact Or.inl hv
        obtain ⟨hpfin, hlen1, hlen2⟩ :=
          dfsPush_spec env start u (insert u E)
            (env.get_neighbors u.1 u.2) rest cf hpinv
        set fr2 := (dfsPush u (insert u E) (env.get_neighbors u.1 u.2) rest cf).1
        set cf2 := (dfsPush u (insert u E) (env.get_neighbors u.1 u.2) rest cf).2
        have hcore2 : DfsCore env start fr2 cf2 (insert u E) := by
          refine ⟨hpfin.keysNodup, hpfin.keysSub, hpfin.startMem,
            hpfin.keysReach, hpfin.partition, hpfin.nodupS, hpfin.disj, ?_⟩
          intro n hn v hv
          by_cases hne : n = u
          · subst hne
            rcases hpfin.closureU v hv with hvn | hvk
            · cases hvn
            · exact hvk
          · exact hpfin.closureOld n hn hne v hv
        have hcap2 : cf2.length ≤ env.width * env.height + 1 := by
          have h2 : (insert start (validCells env)).card
              ≤ (validCells env).card + 1 := Finset.card_insert_le _ _
          have h3 := validCells_card env
          have h4 := keys_length_le cf2 hpfin.keysNodup
            (insert start (validCells env)) hpfin.keysSub
          omega
        have hfuel2 : fr2.length +
            2 * ((env.width * env.height + 1) - cf2.length) < f := by
          simp only [List.length_cons] at hfuel
          omega
        have hgE2 : goal ∉ insert u E := by
          rw [Finset.mem_insert]
          rintro (rfl | hgoal2)
          · exact hgoal rfl
          · exact hgE hgoal2
        have hres := ih fr2 cf2 (insert u E)
          { res with
              frontier_history := res.frontier_history ++ [u :: rest],
              nodes_expanded := res.nodes_expanded + 1 }
          hcore2 hgE2 hfound (by simp [hnodes, hcard2]) hfuel2
        refine ⟨hres.1, hres.2.1, hres.2.2.1, ?_⟩
        intro hp
        refine hres.2.2.2 ?_
        intro f2 hf2
        simp only at hf2
        rw [List.mem_append] at hf2
        rcases hf2 with hf2 | hf2
        · exact hp f2 hf2
        · rw [List.mem_singleton] at hf2
          subst hf2
          exact hc.nodupS

theorem dfs_initial_core (env : Environment) (start : Coord) :
    DfsCore env start [start] [(start, none)] ∅ := by
  refine ⟨?_, ?_, ?_, ?_, ?_, ?_, ?_, ?_⟩
  · simp
  · intro c hc
    simp only [List.map_cons, List.map_nil, List.mem_singleton] at hc
    rw [hc]
    exact Finset.mem_insert_self _ _
  · simp
  · intro c hc
    simp only [List.map_cons, List.map_nil, List.mem_singleton] at hc
    rw [hc]
    exact reachable_refl env start
  · intro n
    simp
  · simp
  · simp
  · simp

/-- Full specification of `dfs` for distinct endpoints. -/
theorem dfs_spec (env : Environment) (start goal : Coord)
    (hne : start ≠ goal) :
    dfs env start goal = dfsNoSkip env start goal ∧
    ((dfs env start goal).found = true → Reachable env start goal) ∧
    ((dfs env start goal).found = false →
      ¬ Reachable env start goal ∧
      (∀ c, c ∈ (dfs env start goal).explored ↔ Reachable env start c) ∧
      (dfs env start goal).nodes_expanded = (dfs env start goal).explored.card) ∧
    (∀ f ∈ (dfs env start goal).frontier_history, f.Nodup) := by
  have h := dfsLoop_spec env start goal (searchFuel env) [start]
    [(start, none)] ∅ {} (dfs_initial_core env start)
    (Finset.not_mem_empty goal) rfl (by simp)
    (by simp [searchFuel]; omega)
  rw [dfs, dfsNoSkip, if_neg hne, if_neg hne]
  exact ⟨h.1, h.2.1, h.2.2.1, h.2.2.2 (by simp)⟩

/-- Claim C10: in both `bfs` and `dfs` each recorded frontier snapshot is
duplicate-free (a coordinate enters the frontier at most once, guarded by
the `came_from` map), and consequently the stale-entry skip branch of
`dfs` never fires: `dfs` coincides with the skip-free variant. -/
theorem claim_C10 (env : Environment) (start goal : Coord) :
    (∀ f ∈ (bfs env start goal).frontier_history, f.Nodup) ∧
    (∀ f ∈ (dfs env start goal).frontier_history, f.Nodup) ∧
    dfs env start goal = dfsNoSkip env start goal := by
  by_cases hne : start = goal
  · subst hne
    rw [bfs, dfs, dfsNoSkip, if_pos rfl, if_pos rfl, if_pos rfl]
    exact ⟨by simp, by simp, rfl⟩
  · exact ⟨(bfs_spec env start goal hne).2.2,
      (dfs_spec env start goal hne).2.2.2,
      (dfs_spec env start goal hne).1⟩

theorem claim_C10_witness :
    dfs testEnvF (0, 0) (1, 0) = dfsNoSkip testEnvF (0, 0) (1, 0) :=
  (claim_C10 testEnvF (0, 0) (1, 0)).2.2

/-! ## A* machinery (claims C2, C3) -/

theorem entryLe_refl (a : Nat × Coord) : entryLe a a := by
  unfold entryLe
  omega

theorem entryLe_trans {a b c : Nat × Coord} (h1 : entryLe a b)
    (h2 : entryLe b c) : entryLe a c := by
  unfold entryLe at *
  omega

theorem entryLe_fst_le {a b : Nat × Coord} (h : entryLe a b) : a.1 ≤ b.1 := by
  unfold entryLe at h
  omega

theorem popMin_eq_none {l : List (Nat × Coord)} :
    popMin l = none ↔ l = [] := by
  cases l with
  | nil => simp [popMin]
  | cons x xs =>
    simp only [popMin]
    constructor
    · intro h
      rcases hx : popMin xs with _ | p
      · rw [hx] at h
        cases h
      · rw [hx] at h
        obtain ⟨m, rest⟩ := p
        simp only at h
        split at h <;> cases h
    · intro h
      cases h

theorem popMin_spec {l : List (Nat × Coord)} {m : Nat × Coord}
    {rest : List (Nat × Coord)} (h : popMin l = some (m, rest)) :
    m ∈ l ∧ (∀ a ∈ l, entryLe m a) ∧ l.length = rest.length + 1 ∧
      (∀ a ∈ rest, a ∈ l) ∧ (∀ a ∈ l, a ≠ m → a ∈ rest) := by
  induction l generalizing m rest with
  | nil => cases h
  | cons x xs ih =>
    rw [popMin] at h
    rcases hx : popMin xs with _ | p
    · rw [hx] at h
      have hxs : xs = [] := popMin_eq_none.mp hx
      subst hxs
      cases h
      refine ⟨List.mem_cons_self _ _, ?_, by simp, by simp, ?_⟩
      · intro a ha
        rw [List.mem_singleton] at ha
        rw [ha]
        exact entryLe_refl _
      · intro a ha hne
        rw [List.mem_singleton] at ha
        exact absurd ha hne
    · obtain ⟨m2, rest2⟩ := p
      rw [hx] at h
      simp only at h
      obtain ⟨hm2, hmin2, hlen2, hsub2, hkeep2⟩ := ih hx
      split at h
      · rename_i hle
        cases h
        refine ⟨List.mem_cons_self _ _, ?_, by simp, ?_, ?_⟩
        · intro a ha
          rcases List.mem_cons.mp ha with rfl | ha
          · exact entryLe_refl _
          · exact entryLe_trans hle (hmin2 a ha)
        · intro a ha
          exact List.mem_cons_of_mem _ ha
        · intro a ha hne
          rcases List.mem_cons.mp ha with rfl | ha
          · exact absurd rfl hne
          · exact ha
      · rename_i hnle
        cases h
        refine ⟨List.mem_cons_of_mem _ hm2, ?_, by simp [hlen2], ?_, ?_⟩
        · intro a ha
          rcases List.mem_cons.mp ha with rfl | ha
          · unfold entryLe at *
            omega
          · exact hmin2 a ha
        · intro a ha
          rcases List.mem_cons.mp ha with rfl | ha
          · exact List.mem_cons_self _ _
          · exact List.mem_cons_of_mem _ (hsub2 a ha)
        · intro a ha hne
          rcases List.mem_cons.mp ha with rfl | ha
          · exact List.mem_cons_self _ _
          · exact List.mem_cons_of_mem _ (hkeep2 a ha hne)

/-- Per-cell potential of the `g_score` map: how much the stored value can
still shrink (plus one), with a maximal budget for unset cells. -/
def allowance (env : Environment) (gs : List (Coord × Nat)) (c : Coord) : Nat :=
  match alookup gs c with
  | none => env.width * env.height + 4
  | some g => g + 1

theorem allowance_lookup_none {env : Environment} {gs : List (Coord × Nat)}
    {c : Coord} (h : alookup gs c = none) :
    allowance env gs c = env.width * env.height + 4 := by
  unfold allowance
  rw [h]

theorem allowance_lookup_some {env : Environment} {gs : List (Coord × Nat)}
    {c : Coord} {g : Nat} (h : alookup gs c = some g) :
    allowance env gs c = g + 1 := by
  unfold allowance
  rw [h]

/-- Termination potential of the A* loop. -/
def astarPot (env : Environment) (start : Coord) (F : List (Nat × Coord))
    (gs : List (Coord × Nat)) : Nat :=
  F.length + ∑ c ∈ insert start (validCells env), allowance env gs c

theorem allowance_other {env : Environment} {gs : List (Coord × Nat)}
    {nb : Coord} {t : Nat} {c : Coord} (h : nb ≠ c) :
    allowance env ((nb, t) :: gs) c = allowance env gs c := by
  unfold allowance
  rw [alookup_cons_ne h]

theorem pot_update {env : Environment} {start : Coord}
    {gs : List (Coord × Nat)} {nb : Coord} {t : Nat}
    (hmem : nb ∈ insert start (validCells env))
    (hdec : allowance env ((nb, t) :: gs) nb + 1 ≤ allowance env gs nb) :
    (∑ c ∈ insert start (validCells env), allowance env ((nb, t) :: gs) c) + 1
      ≤ ∑ c ∈ insert start (validCells env), allowance env gs c := by
  rw [← Finset.add_sum_erase _ _ hmem, ← Finset.add_sum_erase _ _ hmem]
  have hrest : ∑ c ∈ (insert start (validCells env)).erase nb,
      allowance env ((nb, t) :: gs) c
      = ∑ c ∈ (insert start (validCells env)).erase nb, allowance env gs c := by
    refine Finset.sum_congr rfl ?_
    intro c hc
    exact allowance_other (Finset.ne_of_mem_erase hc).symm
  rw [hrest]
  omega

/-- Mid-relaxation invariant of the A* neighbour loop.  `u` is the node
being expanded (already explored, with optimal `g`), `E2` the explored
set including `u`. -/
structure APushInv (env : Environment) (start goal u : Coord)
    (E2 : Finset Coord) (nbs : List Coord) (F : List (Nat × Coord))
    (cf : CameFrom) (gs : List (Coord × Nat)) : Prop where
  nbsSub : ∀ v ∈ nbs, v ∈ env.get_neighbors u.1 u.2
  domEq : ∀ n : Coord, (alookup gs n).isSome ↔ (alookup cf n).isSome
  startG : alookup gs start = some 0
  startCf : alookup cf start = some none
  valNone : ∀ n v, alookup cf n = some v → v = none → n = start
  link : ∀ n w, alookup cf n = some (some w) →
    n ∈ env.get_neighbors w.1 w.2 ∧
      ∃ gn gw, alookup gs n = some gn ∧ alookup gs w = some gw ∧ gw + 1 ≤ gn
  gValid : ∀ n gn, alookup gs n = some gn → Reachable env start n ∧
    hopDist env start n ≤ gn ∧ (n = start ∨ env.is_walkable n.1 n.2 = true)
  uG : alookup gs u = some (hopDist env start u)
  ureach : Reachable env start u
  uE : u ∈ E2
  startE : start ∈ E2
  exploredOpt : ∀ n ∈ E2, ∃ gn, alookup gs n = some gn ∧
    gn = hopDist env start n
  freshEntry : ∀ n gn, alookup gs n = some gn → n ∉ E2 →
    (gn + heuristic n goal, n) ∈ F
  entryValid : ∀ fe ∈ F, ∃ gn, alookup gs fe.2 = some gn ∧
    gn + heuristic fe.2 goal ≤ fe.1
  relaxedOld : ∀ n ∈ E2, n ≠ u → ∀ v ∈ env.get_neighbors n.1 n.2,
    ∃ gv, alookup gs v = some gv ∧ gv ≤ hopDist env start n + 1
  relaxedU : ∀ v ∈ env.get_neighbors u.1 u.2, v ∈ nbs ∨
    ∃ gv, alookup gs v = some gv ∧ gv ≤ hopDist env start u + 1
  goalE : goal ∉ E2

theorem astarRelax_cons_mem {goal u : Coord} {E2 : Finset Coord}
    {nb : Coord} {nbs : List Coord} {F : List (Nat × Coord)} {cf : CameFrom}
    {gs : List (Coord × Nat)} (hE : nb ∈ E2) :
    astarRelax goal u E2 (nb :: nbs) F cf gs
      = astarRelax goal u E2 nbs F cf gs := by
  rw [astarRelax, if_pos hE]

theorem astarRelax_cons_improve_none {goal u : Coord} {E2 : Finset Coord}
    {nb : Coord} {nbs : List Coord} {F : List (Nat × Coord)} {cf : CameFrom}
    {gs : List (Coord × Nat)} (hE : nb ∉ E2)
    (hnb : alookup gs nb = none) :
    astarRelax goal u E2 (nb :: nbs) F cf gs
      = astarRelax goal u E2 nbs
          (((alookup gs u).getD 0 + 1 + heuristic nb goal, nb) :: F)
          ((nb, some u) :: cf) ((nb, (alookup gs u).getD 0 + 1) :: gs) := by
  rw [astarRelax, if_neg hE]
  simp only [hnb]
  rw [if_pos trivial]

theorem astarRelax_cons_improve_some {goal u : Coord} {E2 : Finset Coord}
    {nb : Coord} {nbs : List Coord} {F : List (Nat × Coord)} {cf : CameFrom}
    {gs : List (Coord × Nat)} {g : Nat} (hE : nb ∉ E2)
    (hnb : alookup gs nb = some g)
    (himp : (alookup gs u).getD 0 + 1 < g) :
    astarRelax goal u E2 (nb :: nbs) F cf gs
      = astarRelax goal u E2 nbs
          (((alookup gs u).getD 0 + 1 + heuristic nb goal, nb) :: F)
          ((nb, some u) :: cf) ((nb, (alookup gs u).getD 0 + 1) :: gs) := by
  rw [astarRelax, if_neg hE]
  simp only [hnb]
  rw [if_pos (decide_eq_true himp)]

theorem astarRelax_cons_skip {goal u : Coord} {E2 : Finset Coord}
    {nb : Coord} {nbs : List Coord} {F : List (Nat × Coord)} {cf : CameFrom}
    {gs : List (Coord × Nat)} {g : Nat} (hE : nb ∉ E2)
    (hnb : alookup gs nb = some g)
    (himp : ¬ (alookup gs u).getD 0 + 1 < g) :
    astarRelax goal u E2 (nb :: nbs) F cf gs
      = astarRelax goal u E2 nbs F cf gs := by
  rw [astarRelax, if_neg hE]
  simp only [hnb]
  rw [if_neg (by rw [decide_eq_true_eq]; exact himp)]

theorem astarRelax_spec (env : Environment) (start goal u : Coord)
    (E2 : Finset Coord) :
    ∀ (nbs : List Coord) (F : List (Nat × Coord)) (cf : CameFrom)
      (gs : List (Coord × Nat)),
      APushInv env start goal u E2 nbs F cf gs →
      APushInv env start goal u E2 []
          (astarRelax goal u E2 nbs F cf gs).1
          (astarRelax goal u E2 nbs F cf gs).2.1
          (astarRelax goal u E2 nbs F cf gs).2.2 ∧
        astarPot env start (astarRelax goal u E2 nbs F cf gs).1
            (astarRelax goal u E2 nbs F cf gs).2.2
          ≤ astarPot env start F gs := by
  intro nbs
  induction nbs with
  | nil =>
    intro F cf gs h
    rw [astarRelax]
    exact ⟨h, le_refl _⟩
  | cons nb nbs ih =>
    intro F cf gs h
    have hnbnb : nb ∈ env.get_neighbors u.1 u.2 :=
      h.nbsSub nb (List.mem_cons_self _ _)
    have hnreach : Reachable env start nb := reachable_step h.ureach hnbnb
    have hdnb : hopDist env start nb ≤ hopDist env start u + 1 :=
      hopDist_step_le h.ureach hnbnb
    by_cases hE : nb ∈ E2
    · rw [astarRelax_cons_mem hE]
      refine ih F cf gs ?_
      refine ⟨fun v hv => h.nbsSub v (List.mem_cons_of_mem nb hv), h.domEq,
        h.startG, h.startCf, h.valNone, h.link, h.gValid, h.uG, h.ureach,
        h.uE, h.startE, h.exploredOpt, h.freshEntry, h.entryValid,
        h.relaxedOld, ?_, h.goalE⟩
      intro v hv
      rcases h.relaxedU v hv with hvn | hvk
      · rw [List.mem_cons] at hvn
        rcases hvn with rfl | hvn
        · right
          obtain ⟨gn, hgn, hopt⟩ := h.exploredOpt v hE
          exact ⟨gn, hgn, by omega⟩
        · exact Or.inl hvn
      · exact Or.inr hvk
    · have ht : (alookup gs u).getD 0 + 1 = hopDist env start u + 1 := by
        rw [h.uG]
        rfl
      have hnbu : nb ≠ u := fun he => hE (he ▸ h.uE)
      have hbound : hopDist env start u ≤ env.width * env.height + 1 :=
        hopDist_le_bound h.ureach
      have hnbw : env.is_walkable nb.1 nb.2 = true :=
        mem_get_neighbors_walkable hnbnb
      have hnbcell : nb ∈ insert start (validCells env) :=
        Finset.mem_insert_of_mem (mem_validCells_of_walkable hnbw)
      rcases hnb : alookup gs nb with _ | g
      · -- nb not yet in g_score: always improved
        have hnbstart : nb ≠ start := by
          intro he
          rw [he, h.startG] at hnb
          cases hnb
        rw [astarRelax_cons_improve_none hE hnb, ht]
        have hinv2 : APushInv env start goal u E2 nbs
            ((hopDist env start u + 1 + heuristic nb goal, nb) :: F)
            ((nb, some u) :: cf)
            ((nb, hopDist env start u + 1) :: gs) := by
          refine ⟨fun v hv => h.nbsSub v (List.mem_cons_of_mem nb hv),
            ?_, ?_, ?_, ?_, ?_, ?_, ?_, h.ureach, h.uE, h.startE, ?_, ?_,
            ?_, ?_, ?_, h.goalE⟩
          · intro n
            by_cases he : nb = n
            · subst he
              rw [alookup_cons_self, alookup_cons_self]
              simp
            · rw [alookup_cons_ne he, alookup_cons_ne he]
              exact h.domEq n
          · rw [alookup_cons_ne hnbstart]
            exact h.startG
          · rw [alookup_cons_ne hnbstart]
            exact h.startCf
          · intro n v hv hvn
            by_cases he : nb = n
            · subst he
              rw [alookup_cons_self] at hv
              cases hv
              cases hvn
            · rw [alookup_cons_ne he] at hv
              exact h.valNone n v hv hvn
          · intro n w hv
            by_cases he : nb = n
            · subst he
              rw [alookup_cons_self] at hv
              cases hv
              refine ⟨hnbnb, hopDist env start u + 1, hopDist env start u,
                alookup_cons_self, ?_, by omega⟩
              rw [alookup_cons_ne hnbu]
              exact h.uG
            · rw [alookup_cons_ne he] at hv
              obtain ⟨h1, gn, gw, hgn, hgw, hle⟩ := h.link n w hv
              by_cases hw : nb = w
              · subst hw
                rw [hgw] at hnb
                cases hnb
              · rw [alookup_cons_ne he, alookup_cons_ne hw]
                exact ⟨h1, gn, gw, hgn, hgw, hle⟩
          · intro n gn hgn
            by_cases he : nb = n
            · subst he
              rw [alookup_cons_self] at hgn
              cases hgn
              exact ⟨hnreach, hdnb, Or.inr hnbw⟩
            · rw [alookup_cons_ne he] at hgn
              exact h.gValid n gn hgn
          · rw [alookup_cons_ne hnbu]
            exact h.uG
          · intro n hn
            have hne : nb ≠ n := fun he => hE (he ▸ hn)
            rw [alookup_cons_ne hne]
            exact h.exploredOpt n hn
          · intro n gn hgn hnE2
            by_cases he : nb = n
            · subst he
              rw [alookup_cons_self] at hgn
              cases hgn
              exact List.mem_cons_self _ _
            · rw [alookup_cons_ne he] at hgn
              exact List.mem_cons_of_mem _ (h.freshEntry n gn hgn hnE2)
          · intro fe hfe
            rcases List.mem_cons.mp hfe with rfl | hfe
            · exact ⟨hopDist env start u + 1, alookup_cons_self, le_refl _⟩
            · obtain ⟨gn, hgn, hle⟩ := h.entryValid fe hfe
              by_cases he : nb = fe.2
              · rw [← he, hnb] at hgn
                cases hgn
              · rw [alookup_cons_ne he]
                exact ⟨gn, hgn, hle⟩
          · intro n hn hne v hv
            obtain ⟨gv, hgv, hle⟩ := h.relaxedOld n hn hne v hv
            by_cases he : nb = v
            · rw [← he, hnb] at hgv
              cases hgv
            · rw [alookup_cons_ne he]
              exact ⟨gv, hgv, hle⟩
          · intro v hv
            by_cases he : nb = v
            · subst he
              right
              exact ⟨hopDist env start u + 1, alookup_cons_self, le_refl _⟩
            · rcases h.relaxedU v hv with hvn | ⟨gv, hgv, hle⟩
              · rw [List.mem_cons] at hvn
                rcases hvn with rfl | hvn
                · exact absurd rfl he
                · exact Or.inl hvn
              · right
                rw [alookup_cons_ne he]
                exact ⟨gv, hgv, hle⟩
        obtain ⟨hfin, hpot⟩ := ih _ _ _ hinv2
        have hdec : allowance env ((nb, hopDist env start u + 1) :: gs) nb + 1
            ≤ allowance env gs nb := by
          rw [allowance_lookup_some alookup_cons_self, allowance_lookup_none hnb]
          omega
        have hsum := pot_update hnbcell hdec
        have hstep : astarPot env start
            ((hopDist env start u + 1 + heuristic nb goal, nb) :: F)
            ((nb, hopDist env start u + 1) :: gs) ≤ astarPot env start F gs := by
          unfold astarPot
          simp only [List.length_cons]
          omega
        exact ⟨hfin, le_trans hpot hstep⟩
      · -- nb already has a g value
        by_cases himp : (alookup gs u).getD 0 + 1 < g
        · rw [astarRelax_cons_improve_some hE hnb himp, ht]
          rw [ht] at himp
          have hnbstart : nb ≠ start := by
            intro he
            rw [he, h.startG] at hnb
            cases hnb
            omega
          have hinv2 : APushInv env start goal u E2 nbs
              ((hopDist env start u + 1 + heuristic nb goal, nb) :: F)
              ((nb, some u) :: cf)
              ((nb, hopDist env start u + 1) :: gs) := by
            refine ⟨fun v hv => h.nbsSub v (List.mem_cons_of_mem nb hv),
              ?_, ?_, ?_, ?_, ?_, ?_, ?_, h.ureach, h.uE, h.startE, ?_, ?_,
              ?_, ?_, ?_, h.goalE⟩
            · intro n
              by_cases he : nb = n
              · subst he
                rw [alookup_cons_self, alookup_cons_self]
                simp
              · rw [alookup_cons_ne he, alookup_cons_ne he]
                exact h.domEq n
            · rw [alookup_cons_ne hnbstart]
              exact h.startG
            · rw [alookup_cons_ne hnbstart]
              exact h.startCf
            · intro n v hv hvn
              by_cases he : nb = n
              · subst he
                rw [alookup_cons_self] at hv
                cases hv
                cases hvn
              · rw [alookup_cons_ne he] at hv
                exact h.valNone n v hv hvn
            · intro n w hv
              by_cases he : nb = n
              · subst he
                rw [alookup_cons_self] at hv
                cases hv
                refine ⟨hnbnb, hopDist env start u + 1, hopDist env start u,
                  alookup_cons_self, ?_, by omega⟩
                rw [alookup_cons_ne hnbu]
                exact h.uG
              · rw [alookup_cons_ne he] at hv
                obtain ⟨h1, gn, gw, hgn, hgw, hle⟩ := h.link n w hv
                by_cases hw : nb = w
                · subst hw
                  rw [hgw] at hnb
                  cases hnb
                  rw [alookup_cons_ne he, alookup_cons_self]
                  exact ⟨h1, gn, hopDist env start u + 1, hgn, rfl, by omega⟩
                · rw [alookup_cons_ne he, alookup_cons_ne hw]
                  exact ⟨h1, gn, gw, hgn, hgw, hle⟩
            · intro n gn hgn
              by_cases he : nb = n
              · subst he
                rw [alookup_cons_self] at hgn
                cases hgn
                exact ⟨hnreach, hdnb, Or.inr hnbw⟩
              · rw [alookup_cons_ne he] at hgn
                exact h.gValid n gn hgn
            · rw [alookup_cons_ne hnbu]
              exact h.uG
            · intro n hn
              have hne : nb ≠ n := fun he => hE (he ▸ hn)
              rw [alookup_cons_ne hne]
              exact h.exploredOpt n hn
            · intro n gn hgn hnE2
              by_cases he : nb = n
              · subst he
                rw [alookup_cons_self] at hgn
                cases hgn
                exact List.mem_cons_self _ _
              · rw [alookup_cons_ne he] at hgn
                exact List.mem_cons_of_mem _ (h.freshEntry n gn hgn hnE2)
            · intro fe hfe
              rcases List.mem_cons.mp hfe with rfl | hfe
              · exact ⟨hopDist env start u + 1, alookup_cons_self, le_refl _⟩
              · obtain ⟨gn, hgn, hle⟩ := h.entryValid fe hfe
                by_cases he : nb = fe.2
                · rw [← he, hnb] at hgn
                  cases hgn
                  rw [← he, alookup_cons_self]
                  refine ⟨hopDist env start u + 1, rfl, ?_⟩
                  rw [he]
                  omega
                · rw [alookup_cons_ne he]
                  exact ⟨gn, hgn, hle⟩
            · intro n hn hne v hv
              obtain ⟨gv, hgv, hle⟩ := h.relaxedOld n hn hne v hv
              by_cases he : nb = v
              · rw [← he, hnb] at hgv
                cases hgv
                rw [← he, alookup_cons_self]
                exact ⟨hopDist env start u + 1, rfl, by omega⟩
              · rw [alookup_cons_ne he]
                exact ⟨gv, hgv, hle⟩
            · intro v hv
              by_cases he : nb = v
              · subst he
                right
                exact ⟨hopDist env start u + 1, alookup_cons_self, le_refl _⟩
              · rcases h.relaxedU v hv with hvn | ⟨gv, hgv, hle⟩
                · rw [List.mem_cons] at hvn
                  rcases hvn with rfl | hvn
                  · exact absurd rfl he
                  · exact Or.inl hvn
                · right
                  rw [alookup_cons_ne he]
                  exact ⟨gv, hgv, hle⟩
          obtain ⟨hfin, hpot⟩ := ih _ _ _ hinv2
          have hdec : allowance env ((nb, hopDist env start u + 1) :: gs) nb + 1
              ≤ allowance env gs nb := by
            rw [allowance_lookup_some alookup_cons_self, allowance_lookup_some hnb]
            omega
          have hsum := pot_update hnbcell hdec
          have hstep : astarPot env start
              ((hopDist env start u + 1 + heuristic nb goal, nb) :: F)
              ((nb, hopDist env start u + 1) :: gs) ≤ astarPot env start F gs := by
            unfold astarPot
            simp only [List.length_cons]
            omega
          exact ⟨hfin, le_trans hpot hstep⟩
        · rw [astarRelax_cons_skip hE hnb himp]
          refine ih F cf gs ?_
          refine ⟨fun v hv => h.nbsSub v (List.mem_cons_of_mem nb hv), h.domEq,
            h.startG, h.startCf, h.valNone, h.link, h.gValid, h.uG, h.ureach,
            h.uE, h.startE, h.exploredOpt, h.freshEntry, h.entryValid,
            h.relaxedOld, ?_, h.goalE⟩
          intro v hv
          rcases h.relaxedU v hv with hvn | hvk
          · rw [List.mem_cons] at hvn
            rcases hvn with rfl | hvn
            · right
              rw [ht] at himp
              exact ⟨g, hnb, by omega⟩
            · exact Or.inl hvn
          · exact Or.inr hvk

/-! ## A* loop invariant and optimality -/

theorem hopDist_path_le {env : Environment} {start c u : Coord}
    {q : List Coord} (hr : Reachable env start c) (hq : isPath env c q u) :
    hopDist env start u ≤ hopDist env start c + q.length := by
  obtain ⟨p, hp, hlen⟩ := hopDist_spec hr
  have hcat : isPath env start (p ++ q) u := by
    rw [isPath_append]
    exact ⟨c, hp, hq⟩
  have h2 := hopDist_le hcat
  rw [List.length_append, hlen] at h2
  exact h2

/-- Loop-head invariant of the `astar` while loop: `F` is the frontier
heap content, `cf` the `came_from` map, `gs` the `g_score` map, `E` the
explored set. -/
structure AStarInv (env : Environment) (start goal : Coord)
    (F : List (Nat × Coord)) (cf : CameFrom) (gs : List (Coord × Nat))
    (E : Finset Coord) : Prop where
  domEq : ∀ n : Coord, (alookup gs n).isSome ↔ (alookup cf n).isSome
  startG : alookup gs start = some 0
  startCf : alookup cf start = some none
  valNone : ∀ n v, alookup cf n = some v → v = none → n = start
  link : ∀ n w, alookup cf n = some (some w) →
    n ∈ env.get_neighbors w.1 w.2 ∧
      ∃ gn gw, alookup gs n = some gn ∧ alookup gs w = some gw ∧ gw + 1 ≤ gn
  gValid : ∀ n gn, alookup gs n = some gn → Reachable env start n ∧
    hopDist env start n ≤ gn ∧ (n = start ∨ env.is_walkable n.1 n.2 = true)
  startE : start ∈ E
  exploredOpt : ∀ n ∈ E, ∃ gn, alookup gs n = some gn ∧
    gn = hopDist env start n
  freshEntry : ∀ n gn, alookup gs n = some gn → n ∉ E →
    (gn + heuristic n goal, n) ∈ F
  entryValid : ∀ fe ∈ F, ∃ gn, alookup gs fe.2 = some gn ∧
    gn + heuristic fe.2 goal ≤ fe.1
  relaxed : ∀ n ∈ E, ∀ v ∈ env.get_neighbors n.1 n.2,
    ∃ gv, alookup gs v = some gv ∧ gv ≤ hopDist env start n + 1
  goalE : goal ∉ E

/-- Walking down a shortest path from an explored node to the popped node
`u`, the minimality of the popped heap entry bounds its `f`-score by
`d(u) + h(u)` (the standard consistent-heuristic argument). -/
theorem astar_walk {env : Environment} {start goal : Coord}
    {F : List (Nat × Coord)} {cf : CameFrom} {gs : List (Coord × Nat)}
    {E : Finset Coord} (h : AStarInv env start goal F cf gs E)
    {f : Nat} {u : Coord} (hmin : ∀ a ∈ F, entryLe (f, u) a) (huE : u ∉ E) :
    ∀ (p : List Coord) (m : Coord), m ∈ E → isPath env m p u →
      hopDist env start m + p.length = hopDist env start u →
      f ≤ hopDist env start u + heuristic u goal := by
  intro p
  induction p with
  | nil =>
    intro m hm hp _
    rw [isPath_nil] at hp
    exact absurd (hp ▸ hm) huE
  | cons c q ih =>
    intro m hm hp hlen
    obtain ⟨hc, hq⟩ := hp
    obtain ⟨gc, hgc, hgcle⟩ := h.relaxed m hm c hc
    obtain ⟨gm, hgm, _⟩ := h.exploredOpt m hm
    have hreachm : Reachable env start m := (h.gValid m gm hgm).1
    by_cases hcE : c ∈ E
    · have hrc : Reachable env start c := reachable_step hreachm hc
      have h1 : hopDist env start u ≤ hopDist env start c + q.length :=
        hopDist_path_le hrc hq
      have h2 : hopDist env start c ≤ hopDist env start m + 1 :=
        hopDist_step_le hreachm hc
      simp only [List.length_cons] at hlen
      exact ih c hcE hq (by omega)
    · have hfr := h.freshEntry c gc hgc hcE
      have hle1 := entryLe_fst_le (hmin _ hfr)
      have h4 : heuristic c goal ≤ q.length + heuristic u goal :=
        heuristic_path_le hq
      simp only [List.length_cons] at hlen
      simp only at hle1
      omega

/-- When an unexplored node is popped from the heap, its stored `g_score`
is the exact shortest-hop distance from `start`. -/
theorem astar_pop_opt {env : Environment} {start goal : Coord}
    {F : List (Nat × Coord)} {cf : CameFrom} {gs : List (Coord × Nat)}
    {E : Finset Coord} (h : AStarInv env start goal F cf gs E)
    {f : Nat} {u : Coord} {rest : List (Nat × Coord)}
    (hpop : popMin F = some ((f, u), rest)) (huE : u ∉ E) :
    alookup gs u = some (hopDist env start u) := by
  obtain ⟨hmemF, hminF, _, _, _⟩ := popMin_spec hpop
  obtain ⟨gu, hgu, hguf⟩ := h.entryValid (f, u) hmemF
  have hru : Reachable env start u := (h.gValid u gu hgu).1
  have hlow : hopDist env start u ≤ gu := (h.gValid u gu hgu).2.1
  obtain ⟨p, hp, hplen⟩ := hopDist_spec hru
  have hf : f ≤ hopDist env start u + heuristic u goal := by
    refine astar_walk h hminF huE p start h.startE hp ?_
    rw [hopDist_self]
    omega
  simp only at hguf
  have hgueq : gu = hopDist env start u := by omega
  rw [hgu, hgueq]

/-- `came_from` chains in `astar` are walkable paths from `start` whose
length is bounded by the node's `g_score` (g-values strictly decrease
along the chain). -/
theorem astar_chain {env : Environment} {start goal : Coord}
    {F : List (Nat × Coord)} {cf : CameFrom} {gs : List (Coord × Nat)}
    {E : Finset Coord} (h : AStarInv env start goal F cf gs E) :
    ∀ (g : Nat) (n : Coord) (gn : Nat), alookup gs n = some gn → gn ≤ g →
      ∃ p, ChainTo cf start n p ∧ isPath env start p n ∧
        p.length ≤ gn ∧ p.Nodup ∧
        (∀ e ∈ p, ∃ ge, alookup gs e = some ge ∧ ge ≤ gn) := by
  intro g
  induction g using Nat.strong_induction_on with
  | _ g ih =>
    intro n gn hgn hle
    by_cases hns : n = start
    · subst hns
      exact ⟨[], ChainTo.base, isPath_nil.mpr rfl, by simp, by simp, by simp⟩
    · have hsome : (alookup cf n).isSome := (h.domEq n).mp (by rw [hgn]; rfl)
      obtain ⟨v, hv⟩ := Option.isSome_iff_exists.mp hsome
      rcases v with _ | w
      · exact absurd (h.valNone n none hv rfl) hns
      · obtain ⟨hnb, gn2, gw, hgn2, hgw, hstep⟩ := h.link n w hv
        rw [hgn] at hgn2
        cases hgn2
        have hgwlt : gw < g := by omega
        obtain ⟨p, hchain, hpath, hplen, hnd, hmem⟩ :=
          ih gw hgwlt w gw hgw (le_refl _)
        refine ⟨p ++ [n], ChainTo.step hns hv hchain, isPath_snoc hpath hnb,
          ?_, ?_, ?_⟩
        · rw [List.length_append, List.length_singleton]
          omega
        · rw [List.nodup_append]
          refine ⟨hnd, by simp, ?_⟩
          intro e he he2
          rw [List.mem_singleton] at he2
          subst he2
          obtain ⟨ge, hge, hgele⟩ := hmem e he
          rw [hge] at hgn
          cases hgn
          omega
        · intro e he
          rw [List.mem_append, List.mem_singleton] at he
          rcases he with he | rfl
          · obtain ⟨ge, hge, hgele⟩ := hmem e he
            exact ⟨ge, hge, by omega⟩
          · exact ⟨gn, hgn, le_refl _⟩

/-- `reconstruct_path` succeeds on any `g_score`-keyed node and yields a
walkable path of length at most the stored `g_score`. -/
theorem astar_reconstruct {env : Environment} {start goal : Coord}
    {F : List (Nat × Coord)} {cf : CameFrom} {gs : List (Coord × Nat)}
    {E : Finset Coord} (h : AStarInv env start goal F cf gs E)
    {n : Coord} {gn : Nat} (hgn : alookup gs n = some gn) :
    ∃ p, reconstruct_path cf start n = some p ∧ isPath env start p n ∧
      p.length ≤ gn := by
  obtain ⟨p, hchain, hpath, hplen, hnd, hmem⟩ :=
    astar_chain h gn n gn hgn (le_refl _)
  refine ⟨p, reconstruct_path_chain hchain ?_, hpath, hplen⟩
  have hsub : ∀ e ∈ p, e ∈ cf.map Prod.fst := by
    intro e he
    obtain ⟨ge, hge, _⟩ := hmem e he
    have hs : (alookup cf e).isSome := (h.domEq e).mp (by rw [hge]; rfl)
    obtain ⟨v, hv⟩ := Option.isSome_iff_exists.mp hs
    exact alookup_isSome_mem hv
  calc p.length ≤ (cf.map Prod.fst).length := nodup_mem_length hnd hsub
    _ = cf.length := List.length_map _ _

/-- With an empty frontier the `astar` explored set is exactly the
walkable component of `start`. -/
theorem astar_exhausted {env : Environment} {start goal : Coord}
    {cf : CameFrom} {gs : List (Coord × Nat)} {E : Finset Coord}
    (h : AStarInv env start goal [] cf gs E) :
    ∀ c, c ∈ E ↔ Reachable env start c := by
  have hkeyE : ∀ n, n ∈ cf.map Prod.fst ↔ n ∈ E := by
    intro n
    constructor
    · intro hn
      obtain ⟨v, hv⟩ := alookup_isSome_of_mem hn
      have hs : (alookup gs n).isSome := (h.domEq n).mpr (by rw [hv]; rfl)
      obtain ⟨gn, hgn⟩ := Option.isSome_iff_exists.mp hs
      by_contra hnE
      exact absurd (h.freshEntry n gn hgn hnE) (List.not_mem_nil _)
    · intro hn
      obtain ⟨gn, hgn, _⟩ := h.exploredOpt n hn
      have hs : (alookup cf n).isSome := (h.domEq n).mp (by rw [hgn]; rfl)
      obtain ⟨v, hv⟩ := Option.isSome_iff_exists.mp hs
      exact alookup_isSome_mem hv
  refine explored_eq_component hkeyE (alookup_isSome_mem h.startCf) ?_ ?_
  · intro c hc
    obtain ⟨gn, hgn, _⟩ := h.exploredOpt c ((hkeyE c).mp hc)
    exact (h.gValid c gn hgn).1
  · intro n hn v hv
    obtain ⟨gv, hgv, _⟩ := h.relaxed n hn v hv
    have hs : (alookup cf v).isSome := (h.domEq v).mp (by rw [hgv]; rfl)
    obtain ⟨w, hw⟩ := Option.isSome_iff_exists.mp hs
    exact alookup_isSome_mem hw

/-- Master specification of the `astar` loop: with the invariant and
enough fuel, the loop either finds the goal with a shortest path, or
exhausts the frontier having explored exactly the reachable component. -/
theorem astarLoop_spec (env : Environment) (start goal : Coord) :
    ∀ (fuel : Nat) (F : List (Nat × Coord)) (cf : CameFrom)
      (gs : List (Coord × Nat)) (E : Finset Coord) (res : SearchResult),
      AStarInv env start goal F cf gs E →
      res.found = false →
      res.nodes_expanded = E.card →
      astarPot env start F gs < fuel →
      ((astarLoop env start goal fuel F cf gs E res).found = true →
        Reachable env start goal ∧
        isPath env start (astarLoop env start goal fuel F cf gs E res).path
          goal ∧
        (astarLoop env start goal fuel F cf gs E res).path.length
          = hopDist env start goal ∧
        (astarLoop env start goal fuel F cf gs E res).path_cost
          = (astarLoop env start goal fuel F cf gs E res).path.length) ∧
      ((astarLoop env start goal fuel F cf gs E res).found = false →
        ¬ Reachable env start goal ∧
        (∀ c, c ∈ (astarLoop env start goal fuel F cf gs E res).explored ↔
          Reachable env start c) ∧
        (astarLoop env start goal fuel F cf gs E res).nodes_expanded
          = (astarLoop env start goal fuel F cf gs E res).explored.card) := by
  intro fuel
  induction fuel with
  | zero =>
    intro F cf gs E res _ _ _ hfuel
    omega
  | succ f ih =>
    intro F cf gs E res hinv hfound hnodes hfuel
    rcases hpop : popMin F with _ | ⟨⟨fv, u⟩, rest⟩
    · have hF : F = [] := popMin_eq_none.mp hpop
      subst hF
      rw [astarLoop, hpop]
      have hcomp := astar_exhausted hinv
      refine ⟨?_, ?_⟩
      · intro habs
        simp only at habs
        rw [hfound] at habs
        cases habs
      · intro _
        refine ⟨fun hr => hinv.goalE ((hcomp goal).mpr hr), hcomp, hnodes⟩
    · obtain ⟨hmemF, hminF, hlenF, hsubF, hkeepF⟩ := popMin_spec hpop
      rw [astarLoop, hpop]
      simp only
      by_cases huE : u ∈ E
      · rw [if_pos huE]
        have hinv2 : AStarInv env start goal rest cf gs E := by
          refine ⟨hinv.domEq, hinv.startG, hinv.startCf, hinv.valNone,
            hinv.link, hinv.gValid, hinv.startE, hinv.exploredOpt, ?_, ?_,
            hinv.relaxed, hinv.goalE⟩
          · intro n gn hgn hnE
            refine hkeepF _ (hinv.freshEntry n gn hgn hnE) ?_
            intro habs
            have hnu : n = u := congrArg Prod.snd habs
            exact hnE (hnu ▸ huE)
          · intro fe hfe
            exact hinv.entryValid fe (hsubF fe hfe)
        have hfuel2 : astarPot env start rest gs < f := by
          unfold astarPot at hfuel ⊢
          omega
        exact ih rest cf gs E _ hinv2 hfound (by simp [hnodes]) hfuel2
      · rw [if_neg huE]
        have huOpt := astar_pop_opt hinv hpop huE
        have hureach : Reachable env start u := (hinv.gValid u _ huOpt).1
        by_cases hgoal : u = goal
        · subst hgoal
          rw [if_pos rfl]
          obtain ⟨p, hrec, hpath, hplen⟩ := astar_reconstruct hinv huOpt
          have hlow := hopDist_le hpath
          have hpeq : p.length = hopDist env start u := by omega
          refine ⟨?_, ?_⟩
          · intro _
            simp only [hrec, Option.getD_some]
            exact ⟨hureach, hpath, hpeq, trivial⟩
          · intro habs
            simp only at habs
            cases habs
        · rw [if_neg hgoal]
          have hpinv : APushInv env start goal u (insert u E)
              (env.get_neighbors u.1 u.2) rest cf gs := by
            refine ⟨fun v hv => hv, hinv.domEq, hinv.startG, hinv.startCf,
              hinv.valNone, hinv.link, hinv.gValid, huOpt, hureach,
              Finset.mem_insert_self u E,
              Finset.mem_insert_of_mem hinv.startE, ?_, ?_, ?_, ?_, ?_, ?_⟩
            · intro n hn
              rw [Finset.mem_insert] at hn
              rcases hn with rfl | hn
              · exact ⟨hopDist env start n, huOpt, rfl⟩
              · exact hinv.exploredOpt n hn
            · intro n gn hgn hnE2
              rw [Finset.mem_insert, not_or] at hnE2
              refine hkeepF _ (hinv.freshEntry n gn hgn hnE2.2) ?_
              intro habs
              exact hnE2.1 (congrArg Prod.snd habs)
            · intro fe hfe
              exact hinv.entryValid fe (hsubF fe hfe)
            · intro n hn hne v hv
              rw [Finset.mem_insert] at hn
              rcases hn with rfl | hn
              · exact absurd rfl hne
              · exact hinv.relaxed n hn v hv
            · intro v hv
              exact Or.inl hv
            · rw [Finset.mem_insert, not_or]
              exact ⟨fun he => hgoal he.symm, hinv.goalE⟩
          obtain ⟨hpfin, hpot⟩ := astarRelax_spec env start goal u
            (insert u E) (env.get_neighbors u.1 u.2) rest cf gs hpinv
          set fcg := astarRelax goal u (insert u E)
            (env.get_neighbors u.1 u.2) rest cf gs with hfcg
          have hinv2 : AStarInv env start goal fcg.1 fcg.2.1 fcg.2.2
              (insert u E) := by
            refine ⟨hpfin.domEq, hpfin.startG, hpfin.startCf, hpfin.valNone,
              hpfin.link, hpfin.gValid, hpfin.startE, hpfin.exploredOpt,
              hpfin.freshEntry, hpfin.entryValid, ?_, hpfin.goalE⟩
            intro n hn v hv
            by_cases hne : n = u
            · subst hne
              rcases hpfin.relaxedU v hv with hvn | hvk
              · cases hvn
              · exact hvk
            · exact hpfin.relaxedOld n hn hne v hv
          have hcard2 : (insert u E).card = E.card + 1 :=
            Finset.card_insert_of_not_mem huE
          have hfuel2 : astarPot env start fcg.1 fcg.2.2 < f := by
            have h2 : astarPot env start rest gs < f := by
              unfold astarPot at hfuel ⊢
              omega
            omega
          exact ih fcg.1 fcg.2.1 fcg.2.2 (insert u E) _ hinv2 hfound
            (by simp [hnodes, hcard2]) hfuel2

/-- Full specification of `astar` for distinct endpoints: on success the
returned path is a shortest walkable path; on failure the goal is
unreachable and the explored set is exactly the reachable component. -/
theorem astar_spec (env : Environment) (start goal : Coord)
    (hne : start ≠ goal) :
    ((astar env start goal).found = true →
      Reachable env start goal ∧
      isPath env start (astar env start goal).path goal ∧
      (astar env start goal).path.length = hopDist env start goal ∧
      (astar env start goal).path_cost
        = (astar env start goal).path.length) ∧
    ((astar env start goal).found = false →
      ¬ Reachable env start goal ∧
      (∀ c, c ∈ (astar env start goal).explored ↔ Reachable env start c) ∧
      (astar env start goal).nodes_expanded
        = (astar env start goal).explored.card) := by
  rw [astar, if_neg hne]
  have h6 : astarFuel env
      = ((env.width * env.height + 1) * (env.width * env.height + 4) + 5)
        + 1 := by
    rw [astarFuel]
  rw [h6, astarLoop]
  have hpop1 : popMin [((0 : Nat), start)] = some ((0, start), []) := rfl
  rw [hpop1]
  simp only
  rw [if_neg (Finset.not_mem_empty start), if_neg hne]
  have hpinv : APushInv env start goal start (insert start (∅ : Finset Coord))
      (env.get_neighbors start.1 start.2) [] [(start, none)] [(start, 0)] := by
    refine ⟨fun v hv => hv, ?_, alookup_cons_self, alookup_cons_self,
      ?_, ?_, ?_, ?_, reachable_refl env start, Finset.mem_insert_self _ _,
      Finset.mem_insert_self _ _, ?_, ?_, ?_, ?_, ?_, ?_⟩
    · intro n
      by_cases h : start = n
      · subst h
        rw [alookup_cons_self, alookup_cons_self]
        exact Iff.rfl
      · rw [alookup_cons_ne h, alookup_cons_ne h]
        exact Iff.rfl
    · intro n v hv _
      by_cases h : start = n
      · exact h.symm
      · rw [alookup_cons_ne h] at hv
        cases hv
    · intro n w hv
      by_cases h : start = n
      · subst h
        rw [alookup_cons_self] at hv
        cases hv
      · rw [alookup_cons_ne h] at hv
        cases hv
    · intro n gn hgn
      by_cases h : start = n
      · subst h
        rw [alookup_cons_self] at hgn
        cases hgn
        exact ⟨reachable_refl env start, by rw [hopDist_self], Or.inl rfl⟩
      · rw [alookup_cons_ne h] at hgn
        cases hgn
    · rw [hopDist_self]
      exact alookup_cons_self
    · intro n hn
      rw [Finset.mem_insert] at hn
      rcases hn with rfl | hn
      · exact ⟨0, alookup_cons_self, (hopDist_self env n).symm⟩
      · exact absurd hn (Finset.not_mem_empty n)
    · intro n gn hgn hnE2
      by_cases h : start = n
      · subst h
        exact absurd (Finset.mem_insert_self start ∅) hnE2
      · rw [alookup_cons_ne h] at hgn
        cases hgn
    · intro fe hfe
      exact absurd hfe (List.not_mem_nil fe)
    · intro n hn hne2 v hv
      rw [Finset.mem_insert] at hn
      rcases hn with rfl | hn
      · exact absurd rfl hne2
      · exact absurd hn (Finset.not_mem_empty n)
    · intro v hv
      exact Or.inl hv
    · rw [Finset.mem_insert]
      rintro (h | h)
      · exact hne h.symm
      · exact absurd h (Finset.not_mem_empty goal)
  obtain ⟨hpfin, hpot⟩ := astarRelax_spec env start goal start
    (insert start (∅ : Finset Coord)) (env.get_neighbors start.1 start.2)
    [] [(start, none)] [(start, 0)] hpinv
  set fcg := astarRelax goal start (insert start (∅ : Finset Coord))
    (env.get_neighbors start.1 start.2) [] [(start, none)] [(start, 0)]
    with hfcg
  have hinv2 : AStarInv env start goal fcg.1 fcg.2.1 fcg.2.2
      (insert start ∅) := by
    refine ⟨hpfin.domEq, hpfin.startG, hpfin.startCf, hpfin.valNone,
      hpfin.link, hpfin.gValid, hpfin.startE, hpfin.exploredOpt,
      hpfin.freshEntry, hpfin.entryValid, ?_, hpfin.goalE⟩
    intro n hn v hv
    by_cases hne2 : n = start
    · subst hne2
      rcases hpfin.relaxedU v hv with hvn | hvk
      · cases hvn
      · exact hvk
    · exact hpfin.relaxedOld n hn hne2 v hv
  have hSbound : ∑ c ∈ insert start (validCells env),
      allowance env [(start, (0 : Nat))] c
      ≤ 1 + env.width * env.height * (env.width * env.height + 4) := by
    rw [← Finset.add_sum_erase _ _ (Finset.mem_insert_self start _)]
    have h1 : allowance env [(start, (0 : Nat))] start = 1 :=
      allowance_lookup_some alookup_cons_self
    have h2 : ∀ c ∈ (insert start (validCells env)).erase start,
        allowance env [(start, (0 : Nat))] c
          = env.width * env.height + 4 := by
      intro c hc
      refine allowance_lookup_none ?_
      rw [alookup_cons_ne (Ne.symm (Finset.ne_of_mem_erase hc))]
      rfl
    rw [Finset.sum_congr rfl h2, Finset.sum_const, smul_eq_mul, h1]
    have hcard : ((insert start (validCells env)).erase start).card
        ≤ env.width * env.height := by
      rw [Finset.card_erase_of_mem (Finset.mem_insert_self start _)]
      have h3 : (insert start (validCells env)).card
          ≤ (validCells env).card + 1 := Finset.card_insert_le _ _
      have h4 := validCells_card env
      omega
    have h5 := Nat.mul_le_mul_right (env.width * env.height + 4) hcard
    omega
  have hfuel2 : astarPot env start fcg.1 fcg.2.2
      < (env.width * env.height + 1) * (env.width * env.height + 4) + 5 := by
    have h7 : astarPot env start [] [(start, (0 : Nat))]
        = ∑ c ∈ insert start (validCells env),
            allowance env [(start, (0 : Nat))] c := by
      unfold astarPot
      simp
    have hexp : (env.width * env.height + 1) * (env.width * env.height + 4)
        = env.width * env.height * (env.width * env.height + 4)
          + (env.width * env.height + 4) := by ring
    rw [h7] at hpot
    omega
  exact astarLoop_spec env start goal _ fcg.1 fcg.2.1 fcg.2.2 _ _ hinv2 rfl
    (by simp) hfuel2

/-- Claim C2: whenever both `astar` and `bfs` report success, the A* path
is never longer than the BFS path, and on the unit-cost 4-connected grid
the two path lengths are equal (both equal the shortest-hop distance). -/
theorem claim_C2 (env : Environment) (start goal : Coord)
    (ha : (astar env start goal).found = true)
    (hb : (bfs env start goal).found = true) :
    (astar env start goal).path.length ≤ (bfs env start goal).path.length ∧
    (astar env start goal).path.length = (bfs env start goal).path.length := by
  by_cases hne : start = goal
  · subst hne
    rw [astar, if_pos rfl, bfs, if_pos rfl]
    exact ⟨le_refl _, rfl⟩
  · have h1 := (astar_spec env start goal hne).1 ha
    have h2 := (bfs_spec env start goal hne).1 hb
    rw [h1.2.2.1, h2.2.2.1]
    exact ⟨le_refl _, rfl⟩

theorem claim_C2_witness :
    (astar testEnvF (0, 0) (1, 0)).found = true ∧
    (bfs testEnvF (0, 0) (1, 0)).found = true ∧
    (astar testEnvF (0, 0) (1, 0)).path.length
      = (bfs testEnvF (0, 0) (1, 0)).path.length :=
  ⟨by decide, by decide,
    (claim_C2 testEnvF (0, 0) (1, 0) (by decide) (by decide)).2⟩

/-- Claim C3: with a goal that is unreachable from the start (and distinct
from it), each of `bfs`, `dfs` and `astar` terminates with `found = false`
and `nodes_expanded` equal to the number of cells in the walkable
component of `start` (measured by the level-set reachability oracle, whose
membership is equivalent to reachability). -/
theorem claim_C3 (env : Environment) (start goal : Coord)
    (hunreach : ¬ Reachable env start goal) (hne : start ≠ goal) :
    (∀ c, c ∈ levelSet env start (env.width * env.height + 1) ↔
      Reachable env start c) ∧
    (bfs env start goal).found = false ∧
    (bfs env start goal).nodes_expanded
      = (levelSet env start (env.width * env.height + 1)).card ∧
    (dfs env start goal).found = false ∧
    (dfs env start goal).nodes_expanded
      = (levelSet env start (env.width * env.height + 1)).card ∧
    (astar env start goal).found = false ∧
    (astar env start goal).nodes_expanded
      = (levelSet env start (env.width * env.height + 1)).card := by
  have hlev : ∀ c, c ∈ levelSet env start (env.width * env.height + 1) ↔
      Reachable env start c :=
    fun c => (reachable_iff_levelSet env start c).symm
  have hbf : (bfs env start goal).found = false := by
    rcases hb : (bfs env start goal).found with _ | _
    · rfl
    · exact absurd ((bfs_spec env start goal hne).1 hb).1 hunreach
  have hdf : (dfs env start goal).found = false := by
    rcases hd : (dfs env start goal).found with _ | _
    · rfl
    · exact absurd ((dfs_spec env start goal hne).2.1 hd) hunreach
  have haf : (astar env start goal).found = false := by
    rcases hA : (astar env start goal).found with _ | _
    · rfl
    · exact absurd ((astar_spec env start goal hne).1 hA).1 hunreach
  obtain ⟨_, hbexp, hbcard⟩ := (bfs_spec env start goal hne).2.1 hbf
  obtain ⟨_, hdexp, hdcard⟩ := (dfs_spec env start goal hne).2.2.1 hdf
  obtain ⟨_, haexp, hacard⟩ := (astar_spec env start goal hne).2 haf
  have hbset : (bfs env start goal).explored
      = levelSet env start (env.width * env.height + 1) := by
    apply Finset.ext
    intro c
    rw [hbexp c, hlev c]
  have hdset : (dfs env start goal).explored
      = levelSet env start (env.width * env.height + 1) := by
    apply Finset.ext
    intro c
    rw [hdexp c, hlev c]
  have haset : (astar env start goal).explored
      = levelSet env start (env.width * env.height + 1) := by
    apply Finset.ext
    intro c
    rw [haexp c, hlev c]
  refine ⟨hlev, hbf, ?_, hdf, ?_, haf, ?_⟩
  · rw [hbcard, hbset]
  · rw [hdcard, hdset]
  · rw [hacard, haset]

/-- 2×1 world whose right cell is an obstacle: the goal below is
unreachable. -/
def testEnvG : Environment :=
  { width := 2, height := 1, grid := [[0, 2]], robot_pos := (0, 0),
    total_dirt := 0, cleaned_dirt := 0 }

theorem claim_C3_witness :
    (¬ Reachable testEnvG (0, 0) (1, 0)) ∧
    (bfs testEnvG (0, 0) (1, 0)).found = false ∧
    (dfs testEnvG (0, 0) (1, 0)).found = false ∧
    (astar testEnvG (0, 0) (1, 0)).found = false := by
  have hunreach : ¬ Reachable testEnvG (0, 0) (1, 0) := fun h =>
    absurd ((reachable_iff_levelSet testEnvG (0, 0) (1, 0)).mp h) (by decide)
  have h := claim_C3 testEnvG (0, 0) (1, 0) hunreach (by decide)
  exact ⟨hunreach, h.2.1, h.2.2.2.1, h.2.2.2.2.2.1⟩
